import Mathlib

/-!
Verification of the WorkFlow orchestrator core (`app/core/` of the
repository): the two execution strategies (`execution.py`), the workflow
factory (`workflow_factory.py`), the workflow engine (`workflow.py`), the
task factory (`task_factory.py`) and the state repositories
(`repository.py`), shallowly embedded as pure Lean functions.

Modelling conventions:
* Python `dict`s (insertion-ordered) are `List (String × α)` / `List (Nat × α)`
  together with `Dict.insert` (update-in-place if the key exists, append
  otherwise) and `Dict.lookup` — exactly a CPython dict's observable
  behaviour.
* A task's `execute()` coroutine is summarised by its observable outcome:
  it either returns a `Bool` or raises (`Outcome.raised`).
* `datetime.now().isoformat()` is modelled by a monotone `Nat` clock: each
  call yields the current clock value and ticks it, so two distinct calls
  always give distinct timestamps.
* The engine's state repository is the in-memory one (a dict), whose
  `save`/`get` never fail; the engine additionally returns the ordered
  trace of states it saved.
-/

set_option maxHeartbeats 1000000

namespace WF

/- Python-dict operations on association lists (insertion order preserved,
assignment to an existing key overwrites in place). -/
namespace Dict

/-- `d[k] = v` on a CPython dict: overwrite in place if present, else append. -/
def insert {κ α : Type} [DecidableEq κ] (k : κ) (v : α) :
    List (κ × α) → List (κ × α)
  | [] => [(k, v)]
  | (k', v') :: rest =>
      if k' = k then (k, v) :: rest else (k', v') :: insert k v rest

/-- `d.get(k)`: the value stored under `k`, if any. -/
def lookup {κ α : Type} [DecidableEq κ] (k : κ) :
    List (κ × α) → Option α
  | [] => none
  | (k', v') :: rest => if k' = k then some v' else lookup k rest

end Dict

/-- The observable outcome of awaiting a task's `execute()` coroutine:
either it returns a boolean, or it raises an exception. -/
inductive Outcome : Type
  | returns (b : Bool)
  | raised
  deriving DecidableEq, Repr

/-- The boolean the strategies record for an outcome: the returned value,
or `false` when `execute()` raised. -/
def Outcome.value : Outcome → Bool
  | .returns b => b
  | .raised => false

/-- A runnable task as the strategies see it: its `name` attribute and the
outcome its `execute()` will produce. -/
structure ExecTask : Type where
  name : String
  outcome : Outcome
  deriving DecidableEq, Repr

/-- `SequentialExecution.execute` (execution.py lines 16–33), with the
`results` dict threaded explicitly.  Each task is awaited in input order;
a returned `false` or a raised exception records `false`/the value and
breaks out of the loop. -/
def seqExecuteAux (results : List (String × Bool)) :
    List ExecTask → List (String × Bool)
  | [] => results
  | t :: rest =>
      match t.outcome with
      | .returns b =>
          if b then seqExecuteAux (Dict.insert t.name b results) rest
          else Dict.insert t.name b results
      | .raised => Dict.insert t.name false results

/-- `SequentialExecution.execute` starting from the empty `results` dict. -/
def seqExecute (tasks : List ExecTask) : List (String × Bool) :=
  seqExecuteAux [] tasks

/-- `ParallelExecution.execute` (execution.py lines 36–66): gather all
outcomes (`return_exceptions=True`, so the gather never raises), then record
`false` for exceptions and the returned boolean otherwise, one dict
assignment per input task in input order. -/
def parExecute (tasks : List ExecTask) : List (String × Bool) :=
  tasks.foldl (fun results t => Dict.insert t.name t.outcome.value results) []

/-- The tasks whose `execute()` the sequential strategy actually awaits:
the longest prefix it reaches before the fail-fast break — every task up
to and including the first one that does not return `true`.  This is the
specification-side notion of "ran" used to state the sequential claim. -/
def seqRan : List ExecTask → List ExecTask
  | [] => []
  | t :: rest =>
      match t.outcome with
      | Outcome.returns true => t :: seqRan rest
      | _ => [t]

/-- `TaskStatus` of schemas/workflow.py (also used for step statuses). -/
inductive TaskStatus : Type
  | pending | running | succeeded | failed
  deriving DecidableEq, Repr

/-- `WorkflowStatus` of schemas/workflow.py. -/
inductive WorkflowStatus : Type
  | pending | running | succeeded | failed
  deriving DecidableEq, Repr

/-- `ExecutionType` of schemas/workflow.py. -/
inductive ExecutionType : Type
  | sequential | parallel
  deriving DecidableEq, Repr

/-- `TaskDefinition` (schemas/workflow.py).  The optional `params` map is
pass-through only — never read by the core — so it is omitted. -/
structure TaskDefinition : Type where
  name : String
  deriving DecidableEq, Repr

/-- `StepDefinition` (schemas/workflow.py). -/
structure StepDefinition : Type where
  execution_type : ExecutionType
  tasks : List TaskDefinition
  deriving DecidableEq, Repr

/-- `WorkflowDefinition` (schemas/workflow.py). -/
structure WorkflowDefinition : Type where
  name : String
  steps : List StepDefinition
  deriving DecidableEq, Repr

/-- `TaskState` (schemas/workflow.py). -/
structure TaskState : Type where
  name : String
  status : TaskStatus
  result : Option Bool
  deriving DecidableEq, Repr

/-- `StepState` (schemas/workflow.py): `tasks` is a dict keyed by task
name. -/
structure StepState : Type where
  execution_type : ExecutionType
  tasks : List (String × TaskState)
  status : TaskStatus
  deriving DecidableEq, Repr

/-- `WorkflowState` (schemas/workflow.py).  The pydantic field
`steps: Dict[int, StepState]` coerces the persisted string keys back to
integers whenever a state is rebuilt through the model constructor (as the
engine does), so step keys are `Nat` here; timestamps are `Nat` clock
values standing for `datetime.now().isoformat()` strings. -/
structure WorkflowState : Type where
  id : String
  name : String
  steps : List (Nat × StepState)
  status : WorkflowStatus
  created_at : Nat
  updated_at : Nat
  deriving DecidableEq, Repr

/-- The in-memory repository contents: workflow id ↦ last saved state. -/
abbrev Repo : Type := List (String × WorkflowState)

/-- `StepState` built by `WorkflowFactory.create_workflow` for one
`StepDefinition` (workflow_factory.py lines 39–54): every task PENDING,
inserted into the step's `tasks` dict keyed by its name, step PENDING. -/
def buildStepState (sd : StepDefinition) : StepState :=
  { execution_type := sd.execution_type
    status := TaskStatus.pending
    tasks := sd.tasks.foldl
      (fun acc td =>
        Dict.insert td.name ⟨td.name, TaskStatus.pending, none⟩ acc) [] }

/-- The `WorkflowState` built by `WorkflowFactory.create_workflow`
(workflow_factory.py lines 22–57) before the repository save: workflow
PENDING, steps keyed by definition order starting at 0.  `wid` is the
generated uuid, `t` the creation clock. -/
def createWorkflowState (d : WorkflowDefinition) (wid : String) (t : Nat) :
    WorkflowState :=
  { id := wid
    name := d.name
    status := WorkflowStatus.pending
    created_at := t
    updated_at := t
    steps := d.steps.enum.map (fun p => (p.1, buildStepState p.2)) }

/-- `WorkflowFactory.create_workflow` including the repository save
(workflow_factory.py line 60): returns the created state and the updated
repository contents. -/
def create_workflow (repo : Repo) (d : WorkflowDefinition) (wid : String)
    (t : Nat) : WorkflowState × Repo :=
  let st := createWorkflowState d wid t
  (st, Dict.insert wid st repo)

/-- A task environment: what `TaskFactory.create_task(name)` followed by an
await of the task's `execute()` observably does for each name.  `none`
means the name is unregistered (`create_task` raises `ValueError`);
`some o` means a task is created whose `execute()` has outcome `o`. -/
def TaskEnv : Type := String → Option Outcome

/-- The concrete registry of task_factory.py with the tasks of tasks.py:
`task_a`, `task_b`, `task_c` are registered and their `execute()` sleeps
and returns `True`; every other name raises `ValueError`. -/
def taskFactoryEnv : TaskEnv := fun n =>
  if n = "task_a" ∨ n = "task_b" ∨ n = "task_c" then
    some (Outcome.returns true)
  else none

/-- The task-building loop of `WorkflowEngine._execute_step` (workflow.py
lines 162–172): resolve each task name through the factory; the first
unregistered name aborts the step (`none`). -/
def resolveTasks (env : TaskEnv) : List String → Option (List ExecTask)
  | [] => some []
  | n :: rest =>
      match env n with
      | none => none
      | some o => (resolveTasks env rest).map (fun ts => ⟨n, o⟩ :: ts)

/-- Strategy selection by the step's `execution_type` (workflow.py
line 175, `self.execution_strategies[step.execution_type]`). -/
def runStrategy (et : ExecutionType) (tasks : List ExecTask) :
    List (String × Bool) :=
  match et with
  | ExecutionType.sequential => seqExecute tasks
  | ExecutionType.parallel => parExecute tasks

/-- The reconciliation loop of `WorkflowEngine._execute_step` (workflow.py
lines 187–201): `for task, result in zip(tasks, results.values())`, update
the task's state if its name is in the step's task dict, clear
`step_success` on a false result or a name miss. -/
def reconcileAux :
    List (ExecTask × Bool) → List (String × TaskState) → Bool →
      List (String × TaskState) × Bool
  | [], ts, ok => (ts, ok)
  | (t, r) :: rest, ts, ok =>
      match Dict.lookup t.name ts with
      | some tstate =>
          reconcileAux rest
            (Dict.insert t.name
              { tstate with
                  status := if r then TaskStatus.succeeded else TaskStatus.failed
                  result := some r } ts)
            (ok && r)
      | none => reconcileAux rest ts false

/-- The result-reconciliation tail of `WorkflowEngine._execute_step`
(workflow.py lines 186–204): fold the strategy's result mapping into the
step via `reconcileAux` and set the step's final status, returning the
updated step and the `step_success` boolean.  It is stated separately
because lines 186–204 are the code that reconciles an arbitrary result
mapping, whatever strategy produced it. -/
def reconcileStep (tasks : List ExecTask) (results : List (String × Bool))
    (step : StepState) : StepState × Bool :=
  let rp := reconcileAux (tasks.zip (results.map Prod.snd)) step.tasks true
  ({ step with
      tasks := rp.1
      status := if rp.2 then TaskStatus.succeeded else TaskStatus.failed },
    rp.2)

/-- `WorkflowEngine._execute_step` (workflow.py lines 140–213) without its
repository save, which the caller model performs.  Returns the step as
left behind, whether the save at line 207 was reached, and the returned
success boolean.  The three early `return False` paths (empty task dict,
unregistered task name, strategy raise) leave the step object untouched —
in particular its status — and skip the save; the strategy raise path is
unreachable here because the embedded strategies are total. -/
def execute_step (env : TaskEnv) (step : StepState) :
    StepState × Bool × Bool :=
  if step.tasks.isEmpty then (step, false, false)
  else
    match resolveTasks env (step.tasks.map Prod.fst) with
    | none => (step, false, false)
    | some tasks =>
        let results := runStrategy step.execution_type tasks
        let sp := reconcileStep tasks results step
        (sp.1, true, sp.2)

/-- Replace the step stored under index `idx` (the Python code mutates the
step object aliased from `workflow_state.steps[step_idx]`). -/
def setStep (st : WorkflowState) (idx : Nat) (s : StepState) : WorkflowState :=
  { st with steps := Dict.insert idx s st.steps }

/-- The outcome of `WorkflowEngine.execute_workflow`: the returned state,
the final repository contents, the chronological list of states passed to
`save_workflow_state`, and the clock after the run. -/
structure EngineResult : Type where
  state : WorkflowState
  repo : Repo
  trace : List WorkflowState
  clock : Nat
  deriving DecidableEq, Repr

/-- The step loop of `WorkflowEngine.execute_workflow` (workflow.py lines
102–138).  For each index: mark the step RUNNING (no `updated_at`
refresh), save; run `_execute_step`; on failure set workflow FAILED,
refresh `updated_at`, save and return; after the last step set workflow
SUCCEEDED, refresh `updated_at`, save. -/
def execStepsLoop (env : TaskEnv) (wid : String) :
    List Nat → WorkflowState → Repo → List WorkflowState → Nat → EngineResult
  | [], st, repo, trace, clock =>
      let stF := { st with status := WorkflowStatus.succeeded, updated_at := clock }
      ⟨stF, Dict.insert wid stF repo, trace ++ [stF], clock + 1⟩
  | idx :: rest, st, repo, trace, clock =>
      match Dict.lookup idx st.steps with
      | none =>
          -- workflow.py lines 106–111: step index missing from the dict
          let stF := { st with status := WorkflowStatus.failed, updated_at := clock }
          ⟨stF, Dict.insert wid stF repo, trace ++ [stF], clock + 1⟩
      | some step =>
          let stepR := { step with status := TaskStatus.running }
          let st1 := setStep st idx stepR
          let repo1 := Dict.insert wid st1 repo
          let trace1 := trace ++ [st1]
          let r := execute_step env stepR
          let st2 := setStep st1 idx r.1
          let repo2 := if r.2.1 then Dict.insert wid st2 repo1 else repo1
          let trace2 := if r.2.1 then trace1 ++ [st2] else trace1
          if r.2.2 then
            execStepsLoop env wid rest st2 repo2 trace2 clock
          else
            let stF := { st2 with status := WorkflowStatus.failed, updated_at := clock }
            ⟨stF, Dict.insert wid stF repo2, trace2 ++ [stF], clock + 1⟩

/-- `WorkflowEngine.execute_workflow` (workflow.py lines 68–138) against
the in-memory repository: load the state (ValueError if the id is
unknown), set it RUNNING with a refreshed `updated_at`, save, sort the
step indices ascending and run the step loop. -/
def execute_workflow (env : TaskEnv) (repo : Repo) (wid : String)
    (clock : Nat) : Except String EngineResult :=
  match Dict.lookup wid repo with
  | none => Except.error "workflow not found"
  | some st0 =>
      let st1 := { st0 with status := WorkflowStatus.running, updated_at := clock }
      let repo1 := Dict.insert wid st1 repo
      let indices := List.insertionSort (· ≤ ·) (st1.steps.map Prod.fst)
      Except.ok (execStepsLoop env wid indices st1 repo1 [st1] (clock + 1))

/-- `InMemoryStateRepository` (repository.py lines 27–38): `__init__` sets
`self.states = {}` — a fresh per-instance dict, there is no class-level
storage. -/
structure InMemoryStateRepository : Type where
  states : List (String × WorkflowState)
  deriving DecidableEq, Repr

/-- `InMemoryStateRepository.__init__`: a fresh instance with an empty
`states` dict. -/
def InMemoryStateRepository.new : InMemoryStateRepository := ⟨[]⟩

/-- `InMemoryStateRepository.save_workflow_state`. -/
def InMemoryStateRepository.save_workflow_state
    (r : InMemoryStateRepository) (wid : String) (st : WorkflowState) :
    InMemoryStateRepository :=
  ⟨Dict.insert wid st r.states⟩

/-- `InMemoryStateRepository.get_workflow_state`. -/
def InMemoryStateRepository.get_workflow_state
    (r : InMemoryStateRepository) (wid : String) : Option WorkflowState :=
  Dict.lookup wid r.states

/-- `InMemoryStateRepository.get_all_workflow_states`. -/
def InMemoryStateRepository.get_all_workflow_states
    (r : InMemoryStateRepository) : List WorkflowState :=
  r.states.map Prod.snd

/-- A failure of an awaited Redis call: `redis.exceptions.ConnectionError`
or any other exception. -/
inductive RedisErr : Type
  | conn
  | other
  deriving DecidableEq, Repr

/-- `RedisStateRepository.save_workflow_state` (repository.py lines
56–65).  `available` is whether `self.redis_client` is non-None (it is set
to None only when construction or a prior `get_all` connection attempt
failed); `setResult` is what `self.redis_client.set(key, state_json)`
does.  With no client the write goes to a freshly constructed
`InMemoryStateRepository`, which is dropped on return; with a client, an
exception from `set` propagates — there is no try/except. -/
def redisSave (available : Bool) (setResult : Except RedisErr Unit) :
    Except RedisErr Unit :=
  if available then setResult else Except.ok ()

/-- `RedisStateRepository.get_workflow_state` (repository.py lines 67–79).
`getResult` is what `self.redis_client.get(key)` does (`none` = key
absent).  With no client the read goes to a freshly constructed — hence
empty — in-memory repository; with a client, an exception from `get`
propagates. -/
def redisGet (available : Bool)
    (getResult : Except RedisErr (Option WorkflowState)) :
    Except RedisErr (Option WorkflowState) :=
  if available then getResult else Except.ok none

/-- `RedisStateRepository.get_all_workflow_states` (repository.py lines
81–111).  `keysResult` is what `self.redis_client.keys("*")` does and
`mgetResult` what `self.redis_client.mget(keys)` does (`none` entries are
empty values, skipped).  A `ConnectionError` from either call is caught by
the inner except: the client is marked unavailable and a freshly
constructed in-memory repository answers (empty list).  Any other
exception reaches the outer `except Exception`, which returns `[]`.  With
no client, the fallback in-memory repository answers directly. -/
def redisGetAll (available : Bool)
    (keysResult : Except RedisErr (List String))
    (mgetResult : Except RedisErr (List (Option WorkflowState))) :
    Except RedisErr (List WorkflowState) :=
  if available then
    match keysResult with
    | Except.error _ => Except.ok []
    | Except.ok keys =>
        if keys.isEmpty then Except.ok []
        else
          match mgetResult with
          | Except.error _ => Except.ok []
          | Except.ok values => Except.ok (values.reduceOption)
  else Except.ok []

/-- A placeholder step, used only to read concrete lookup results. -/
def dummyStep : StepState :=
  ⟨ExecutionType.sequential, [], TaskStatus.pending⟩

/-- Extract the result of a run known to have found its workflow. -/
def getOk : Except String EngineResult → EngineResult
  | Except.ok r => r
  | Except.error _ =>
      ⟨⟨"", "", [], WorkflowStatus.pending, 0, 0⟩, [], [], 0⟩

/-- Concrete environment: `ok` returns `True`, `bad` returns `False`. -/
def envC1 : TaskEnv := fun n =>
  if n = "ok" then some (Outcome.returns true)
  else if n = "bad" then some (Outcome.returns false)
  else none

/-- Concrete 2-step definition whose first step contains a failing task. -/
def defC1 : WorkflowDefinition :=
  ⟨"wf1", [⟨ExecutionType.sequential, [⟨"ok"⟩, ⟨"bad"⟩]⟩,
           ⟨ExecutionType.parallel, [⟨"ok"⟩]⟩]⟩

/-- Create `defC1` as workflow `w1` at clock 5 and execute it at clock 10. -/
def runC1 : EngineResult :=
  getOk (execute_workflow envC1 (create_workflow [] defC1 "w1" 5).2 "w1" 10)

/-- The step stored at index 0 after the `runC1` execution. -/
def stepC1 : StepState := (Dict.lookup 0 runC1.state.steps).getD dummyStep

/-- Concrete 2-step definition whose first step names unregistered
`task_x` (the registry of task_factory.py knows only `task_a`, `task_b`,
`task_c`). -/
def defC4 : WorkflowDefinition :=
  ⟨"wf4", [⟨ExecutionType.sequential, [⟨"task_x"⟩]⟩,
           ⟨ExecutionType.sequential, [⟨"task_a"⟩]⟩]⟩

/-- Create `defC4` as workflow `w4` at clock 5 and execute it under the
real task registry at clock 10. -/
def runC4 : EngineResult :=
  getOk (execute_workflow taskFactoryEnv (create_workflow [] defC4 "w4" 5).2 "w4" 10)

/-- Step 0 of the freshly created `defC4` workflow state. -/
def stepC4 : StepState :=
  (Dict.lookup 0 (createWorkflowState defC4 "w4" 5).steps).getD dummyStep

/-- A workflow state for the repository instance-sharing claim. -/
def stateC6 : WorkflowState :=
  ⟨"id6", "wf6", [], WorkflowStatus.pending, 0, 0⟩

/-- A single-step definition in which two `TaskDefinition`s share the name
`x`. -/
def defC7 : WorkflowDefinition :=
  ⟨"wf7", [⟨ExecutionType.sequential, [⟨"x"⟩, ⟨"x"⟩]⟩]⟩

/-- A step holding three PENDING tasks `a`, `b` and `c`. -/
def stepC8 : StepState :=
  ⟨ExecutionType.sequential,
    [("a", ⟨"a", TaskStatus.pending, none⟩),
     ("b", ⟨"b", TaskStatus.pending, none⟩),
     ("c", ⟨"c", TaskStatus.pending, none⟩)],
    TaskStatus.pending⟩

/-- Environment for `stepC8`: `a` and `c` return `True`, `b` returns
`False`, so the sequential strategy stops after `b` and `c` gets no entry
in the result mapping. -/
def envC8 : TaskEnv := fun n =>
  if n = "a" then some (Outcome.returns true)
  else if n = "b" then some (Outcome.returns false)
  else if n = "c" then some (Outcome.returns true)
  else none

/-- The tasks the engine resolves for `stepC8` under `envC8`. -/
def tasksC8 : List ExecTask :=
  [⟨"a", Outcome.returns true⟩, ⟨"b", Outcome.returns false⟩,
   ⟨"c", Outcome.returns true⟩]

/-- Environment where every name is registered and succeeds. -/
def envC9 : TaskEnv := fun _ => some (Outcome.returns true)

/-- A 1-step, 1-task definition. -/
def defC9 : WorkflowDefinition :=
  ⟨"wf9", [⟨ExecutionType.sequential, [⟨"t1"⟩]⟩]⟩

/-- Create `defC9` as workflow `w9` at clock 5 and execute it at clock 10. -/
def runC9 : EngineResult :=
  getOk (execute_workflow envC9 (create_workflow [] defC9 "w9" 5).2 "w9" 10)


/-- Concrete task list: A succeeds, B fails, C succeeds. -/
def tasksC2 : List ExecTask :=
  [⟨"A", Outcome.returns true⟩, ⟨"B", Outcome.returns false⟩,
   ⟨"C", Outcome.returns true⟩]

/-- Concrete task list: A succeeds, B raises, C succeeds. -/
def tasksC3 : List ExecTask :=
  [⟨"A", Outcome.returns true⟩, ⟨"B", Outcome.raised⟩,
   ⟨"C", Outcome.returns true⟩]

/-- Concrete task list: both tasks succeed. -/
def tasksC10 : List ExecTask :=
  [⟨"A", Outcome.returns true⟩, ⟨"B", Outcome.returns true⟩]

/-! ### Association-list (Python dict) lemmas -/

namespace Dict

theorem lookup_insert_self {κ α : Type} [DecidableEq κ] (k : κ) (v : α)
    (d : List (κ × α)) : lookup k (insert k v d) = some v := by
  induction d with
  | nil => simp [insert, lookup]
  | cons p rest ih =>
      obtain ⟨k', v'⟩ := p
      by_cases h : k' = k <;> simp [insert, lookup, h, ih]

theorem lookup_insert_ne {κ α : Type} [DecidableEq κ] {k j : κ} (v : α)
    (d : List (κ × α)) (hjk : j ≠ k) :
    lookup j (insert k v d) = lookup j d := by
  induction d with
  | nil => simp [insert, lookup, Ne.symm hjk]
  | cons p rest ih =>
      obtain ⟨k', v'⟩ := p
      by_cases h : k' = k
      · subst h
        simp [insert, lookup, Ne.symm hjk]
      · simp [insert, lookup, h, ih]

theorem keys_insert_of_mem {κ α : Type} [DecidableEq κ] {k : κ} (v : α)
    {d : List (κ × α)} (h : k ∈ d.map Prod.fst) :
    (insert k v d).map Prod.fst = d.map Prod.fst := by
  induction d with
  | nil => simp at h
  | cons p rest ih =>
      obtain ⟨k', v'⟩ := p
      by_cases hk : k' = k
      · simp [insert, hk]
      · simp only [List.map_cons, List.mem_cons] at h
        rcases h with h | h
        · exact absurd h.symm hk
        · simp [insert, hk, ih h]

/-- Inserting a key that is not yet present appends it at the end. -/
theorem insert_of_not_mem {κ α : Type} [DecidableEq κ] {k : κ} (v : α)
    {d : List (κ × α)} (h : k ∉ d.map Prod.fst) :
    insert k v d = d ++ [(k, v)] := by
  induction d with
  | nil => simp [insert]
  | cons p rest ih =>
      obtain ⟨k', v'⟩ := p
      simp only [List.map_cons, List.mem_cons] at h
      push_neg at h
      simp [insert, Ne.symm h.1, ih h.2]

theorem lookup_eq_none_of_not_mem {κ α : Type} [DecidableEq κ] {k : κ}
    {d : List (κ × α)} (h : k ∉ d.map Prod.fst) : lookup k d = none := by
  induction d with
  | nil => simp [lookup]
  | cons p rest ih =>
      obtain ⟨k', v'⟩ := p
      simp only [List.map_cons, List.mem_cons] at h
      push_neg at h
      simp [lookup, Ne.symm h.1, ih h.2]

theorem lookup_append_right {κ α : Type} [DecidableEq κ] {k : κ}
    {d : List (κ × α)} (h : k ∉ d.map Prod.fst) (d' : List (κ × α)) :
    lookup k (d ++ d') = lookup k d' := by
  induction d with
  | nil => simp
  | cons p rest ih =>
      obtain ⟨k', v'⟩ := p
      simp only [List.map_cons, List.mem_cons] at h
      push_neg at h
      simp [lookup, Ne.symm h.1, ih h.2]

theorem lookup_isSome_of_mem {κ α : Type} [DecidableEq κ] {k : κ}
    {d : List (κ × α)} (h : k ∈ d.map Prod.fst) :
    (lookup k d).isSome := by
  induction d with
  | nil => simp at h
  | cons p rest ih =>
      obtain ⟨k', v'⟩ := p
      by_cases hk : k' = k
      · simp [lookup, hk]
      · simp only [List.map_cons, List.mem_cons] at h
        rcases h with h | h
        · exact absurd h.symm hk
        · simp only [lookup, hk, if_false]
          exact ih h

theorem mem_of_lookup_isSome {κ α : Type} [DecidableEq κ] {k : κ}
    {d : List (κ × α)} (h : (lookup k d).isSome) :
    k ∈ d.map Prod.fst := by
  induction d with
  | nil => simp [lookup] at h
  | cons p rest ih =>
      obtain ⟨k', v'⟩ := p
      by_cases hk : k' = k
      · simp [hk]
      · simp only [lookup, hk, if_false] at h
        simp [ih h]

theorem lookup_isSome_iff {κ α : Type} [DecidableEq κ] {k : κ}
    {d : List (κ × α)} : (lookup k d).isSome ↔ k ∈ d.map Prod.fst :=
  ⟨mem_of_lookup_isSome, lookup_isSome_of_mem⟩

/-- Looking up a key of an association list built with `map` when the keys
are pairwise distinct. -/
theorem lookup_map_self {κ α β : Type} [DecidableEq κ] (key : α → κ)
    (val : α → β) {l : List α} (hnd : (l.map key).Nodup) {a : α}
    (ha : a ∈ l) :
    lookup (key a) (l.map fun x => (key x, val x)) = some (val a) := by
  induction l with
  | nil => simp at ha
  | cons x xs ih =>
      simp only [List.map_cons, List.nodup_cons] at hnd
      by_cases h : key x = key a
      · have hax : a = x := by
          rcases List.mem_cons.mp ha with rfl | hmem
          · rfl
          · exact absurd (h ▸ List.mem_map_of_mem key hmem) hnd.1
        subst hax
        simp [lookup]
      · have hmem : a ∈ xs := by
          rcases List.mem_cons.mp ha with rfl | hmem
          · exact absurd rfl h
          · exact hmem
        simp only [List.map_cons, lookup, h, if_false]
        exact ih hnd.2 hmem

end Dict

/-- Folding Python-dict insertion over pairwise-distinct fresh keys builds
the corresponding association list in input order. -/
theorem foldl_insert_eq_map {κ α β : Type} [DecidableEq κ] (key : α → κ)
    (val : α → β) :
    ∀ (l : List α) (acc : List (κ × β)), (l.map key).Nodup →
      (∀ a ∈ l, key a ∉ acc.map Prod.fst) →
      l.foldl (fun d a => Dict.insert (key a) (val a) d) acc =
        acc ++ l.map (fun a => (key a, val a))
  | [], acc, _, _ => by simp
  | x :: xs, acc, hnd, hfresh => by
      simp only [List.map_cons, List.nodup_cons] at hnd
      have hx : key x ∉ acc.map Prod.fst := hfresh x (List.mem_cons_self x xs)
      have step : Dict.insert (key x) (val x) acc = acc ++ [(key x, val x)] :=
        Dict.insert_of_not_mem (val x) hx
      have hfresh2 : ∀ a ∈ xs, key a ∉ (acc ++ [(key x, val x)]).map Prod.fst := by
        intro a ha
        simp only [List.map_append, List.mem_append, List.map_cons,
          List.map_nil, List.mem_singleton]
        push_neg
        refine ⟨hfresh a (List.mem_cons_of_mem x ha), ?_⟩
        intro hEq
        exact hnd.1 (hEq ▸ List.mem_map_of_mem key ha)
      calc (x :: xs).foldl (fun d a => Dict.insert (key a) (val a) d) acc
          = xs.foldl (fun d a => Dict.insert (key a) (val a) d)
              (acc ++ [(key x, val x)]) := by rw [List.foldl_cons, step]
        _ = (acc ++ [(key x, val x)]) ++ xs.map (fun a => (key a, val a)) :=
              foldl_insert_eq_map key val xs _ hnd.2 hfresh2
        _ = acc ++ (x :: xs).map (fun a => (key a, val a)) := by
              simp [List.append_assoc]

/-! ### Sequential strategy (claim C2) -/

/-- `seqRan` is a prefix of the input list. -/
theorem seqRan_eq_take : ∀ tasks : List ExecTask, ∃ k, seqRan tasks = tasks.take k
  | [] => ⟨0, rfl⟩
  | t :: rest => by
      match h : t.outcome with
      | Outcome.returns true =>
          obtain ⟨k, hk⟩ := seqRan_eq_take rest
          exact ⟨k + 1, by simp [seqRan, h, hk]⟩
      | Outcome.returns false => exact ⟨1, by simp [seqRan, h]⟩
      | Outcome.raised => exact ⟨1, by simp [seqRan, h]⟩

/-- Every awaited task except possibly the last returned `true`: the
strategy never runs anything after a false/raising task. -/
theorem seqRan_dropLast_returns_true :
    ∀ tasks : List ExecTask, ∀ t ∈ (seqRan tasks).dropLast,
      t.outcome = Outcome.returns true
  | [] => by intro t ht; simp [seqRan] at ht
  | x :: rest => by
      intro t ht
      match h : x.outcome with
      | Outcome.returns true =>
          rw [seqRan] at ht
          simp only [h] at ht
          match hr : seqRan rest with
          | [] => simp [hr] at ht
          | y :: ys =>
              rw [hr, List.dropLast_cons₂] at ht
              rcases List.mem_cons.mp ht with rfl | hmem
              · exact h
              · exact seqRan_dropLast_returns_true rest t (hr ▸ hmem)
      | Outcome.returns false =>
          rw [seqRan] at ht
          simp [h] at ht
      | Outcome.raised =>
          rw [seqRan] at ht
          simp [h] at ht

/-- The sequential strategy stops early only because of a failure: either
it runs everything, or the last awaited task did not return `true`. -/
theorem seqRan_maximal :
    ∀ tasks : List ExecTask, seqRan tasks = tasks ∨
      ∃ t, (seqRan tasks).getLast? = some t ∧ t.outcome ≠ Outcome.returns true
  | [] => Or.inl rfl
  | x :: rest => by
      match h : x.outcome with
      | Outcome.returns true =>
          rcases seqRan_maximal rest with heq | ⟨t, hlast, hne⟩
          · exact Or.inl (by simp [seqRan, h, heq])
          · refine Or.inr ⟨t, ?_, hne⟩
            have hne2 : seqRan rest ≠ [] := by
              intro hnil
              rw [hnil] at hlast
              simp at hlast
            obtain ⟨y, ys, hyys⟩ := List.exists_cons_of_ne_nil hne2
            rw [seqRan]
            simp only [h]
            rw [hyys] at hlast ⊢
            exact hlast
      | Outcome.returns false =>
          exact Or.inr ⟨x, by simp [seqRan, h], by simp [h]⟩
      | Outcome.raised =>
          exact Or.inr ⟨x, by simp [seqRan, h], by simp [h]⟩

/-- The `results` dict built by the sequential loop: the already-recorded
entries followed by one entry per awaited task, in order, holding the
returned boolean (`false` for a raise). -/
theorem seqExecuteAux_eq :
    ∀ (tasks : List ExecTask) (acc : List (String × Bool)),
      (tasks.map ExecTask.name).Nodup →
      (∀ t ∈ tasks, t.name ∉ acc.map Prod.fst) →
      seqExecuteAux acc tasks =
        acc ++ (seqRan tasks).map (fun t => (t.name, t.outcome.value))
  | [], acc, _, _ => by simp [seqExecuteAux, seqRan]
  | x :: rest, acc, hnd, hfresh => by
      simp only [List.map_cons, List.nodup_cons] at hnd
      have hx : x.name ∉ acc.map Prod.fst := hfresh x (List.mem_cons_self x rest)
      match h : x.outcome with
      | Outcome.returns true =>
          have step : Dict.insert x.name true acc = acc ++ [(x.name, true)] :=
            Dict.insert_of_not_mem true hx
          have hfresh2 : ∀ t ∈ rest, t.name ∉ (acc ++ [(x.name, true)]).map Prod.fst := by
            intro t ht
            simp only [List.map_append, List.mem_append, List.map_cons,
              List.map_nil, List.mem_singleton]
            push_neg
            refine ⟨hfresh t (List.mem_cons_of_mem x ht), ?_⟩
            intro hEq
            exact hnd.1 (hEq ▸ List.mem_map_of_mem ExecTask.name ht)
          rw [seqExecuteAux]
          simp only [h, if_true]
          rw [step, seqExecuteAux_eq rest _ hnd.2 hfresh2]
          simp [seqRan, h, Outcome.value, List.append_assoc]
      | Outcome.returns false =>
          rw [seqExecuteAux]
          simp only [h, Bool.false_eq_true, if_false]
          rw [Dict.insert_of_not_mem false hx]
          simp [seqRan, h, Outcome.value]
      | Outcome.raised =>
          rw [seqExecuteAux]
          simp only [h]
          rw [Dict.insert_of_not_mem false hx]
          simp [seqRan, h, Outcome.value]



/-- C2.  With pairwise-distinct task names, `SequentialExecution.execute`
awaits exactly the tasks of `seqRan tasks` — a prefix of the input, i.e.
tasks are run one at a time in input order; every awaited task except
possibly the last returned `true` (so nothing runs after a thrown
exception or a `false` return); the run is cut short only by such a
failure; each awaited task is mapped to its returned boolean (`false` for
a raise); and a task that never ran has no entry in the mapping. -/
theorem C2_sequential_semantics (tasks : List ExecTask)
    (h : (tasks.map ExecTask.name).Nodup) :
    (∃ k, seqRan tasks = tasks.take k)
    ∧ (∀ t ∈ (seqRan tasks).dropLast, t.outcome = Outcome.returns true)
    ∧ (seqRan tasks = tasks ∨
        ∃ t, (seqRan tasks).getLast? = some t ∧ t.outcome ≠ Outcome.returns true)
    ∧ (∀ t ∈ seqRan tasks,
        Dict.lookup t.name (seqExecute tasks) = some t.outcome.value)
    ∧ (∀ t ∈ tasks, t ∉ seqRan tasks →
        Dict.lookup t.name (seqExecute tasks) = none) := by
  obtain ⟨k, hk⟩ := seqRan_eq_take tasks
  have hsub : seqRan tasks ⊆ tasks := by
    rw [hk]
    exact (List.take_sublist k tasks).subset
  have hndran : ((seqRan tasks).map ExecTask.name).Nodup := by
    rw [hk, List.map_take]
    exact ((tasks.map ExecTask.name).take_sublist k).nodup h
  have hmap : seqExecute tasks =
      (seqRan tasks).map (fun t => (t.name, t.outcome.value)) := by
    have := seqExecuteAux_eq tasks [] h (by simp)
    simpa [seqExecute] using this
  refine ⟨⟨k, hk⟩, seqRan_dropLast_returns_true tasks, seqRan_maximal tasks,
    ?_, ?_⟩
  · intro t ht
    rw [hmap]
    exact Dict.lookup_map_self ExecTask.name (fun t => t.outcome.value) hndran ht
  · intro t ht hnot
    rw [hmap]
    apply Dict.lookup_eq_none_of_not_mem
    have hkeys : ((seqRan tasks).map fun t => (t.name, t.outcome.value)).map Prod.fst
        = (seqRan tasks).map ExecTask.name := by
      simp [List.map_map, Function.comp]
    rw [hkeys]
    intro hmem
    obtain ⟨u, hu, huname⟩ := List.mem_map.mp hmem
    have : u = t := List.inj_on_of_nodup_map h (hsub hu) ht huname
    exact hnot (this ▸ hu)

/-- Witness for C2 on tasks [A returns true, B returns false, C returns
true]: the hypothesis holds and the conclusion follows by the theorem. -/
theorem C2_sequential_semantics_witness :
    ((tasksC2.map ExecTask.name).Nodup)
    ∧ ((∃ k, seqRan tasksC2 = tasksC2.take k)
      ∧ (∀ t ∈ (seqRan tasksC2).dropLast, t.outcome = Outcome.returns true)
      ∧ (seqRan tasksC2 = tasksC2 ∨
          ∃ t, (seqRan tasksC2).getLast? = some t ∧ t.outcome ≠ Outcome.returns true)
      ∧ (∀ t ∈ seqRan tasksC2,
          Dict.lookup t.name (seqExecute tasksC2) = some t.outcome.value)
      ∧ (∀ t ∈ tasksC2, t ∉ seqRan tasksC2 →
          Dict.lookup t.name (seqExecute tasksC2) = none)) :=
  ⟨by decide, C2_sequential_semantics tasksC2 (by decide)⟩

/-- C3.  With pairwise-distinct task names, `ParallelExecution.execute`
returns one entry per input task, in input order, holding that task's own
returned boolean — `false` exactly when its `execute()` raised — so no
task's failure suppresses any other task's entry or result. -/
theorem C3_parallel_semantics (tasks : List ExecTask)
    (h : (tasks.map ExecTask.name).Nodup) :
    parExecute tasks = tasks.map (fun t => (t.name, t.outcome.value))
    ∧ ∀ t ∈ tasks, Dict.lookup t.name (parExecute tasks) = some t.outcome.value := by
  have hmap : parExecute tasks = tasks.map (fun t => (t.name, t.outcome.value)) := by
    have := foldl_insert_eq_map ExecTask.name (fun t => t.outcome.value) tasks [] h
      (by simp)
    simpa [parExecute] using this
  refine ⟨hmap, fun t ht => ?_⟩
  rw [hmap]
  exact Dict.lookup_map_self ExecTask.name (fun t => t.outcome.value) h ht

/-- Witness for C3 on tasks [A returns true, B raises, C returns true]. -/
theorem C3_parallel_semantics_witness :
    ((tasksC3.map ExecTask.name).Nodup)
    ∧ (parExecute tasksC3 = tasksC3.map (fun t => (t.name, t.outcome.value))
      ∧ ∀ t ∈ tasksC3,
          Dict.lookup t.name (parExecute tasksC3) = some t.outcome.value) :=
  ⟨by decide, C3_parallel_semantics tasksC3 (by decide)⟩

/-- When every task returns `true`, the sequential loop never breaks and
degenerates to the same fold the parallel strategy performs. -/
theorem seqExecuteAux_all_true :
    ∀ (tasks : List ExecTask) (acc : List (String × Bool)),
      (∀ t ∈ tasks, t.outcome = Outcome.returns true) →
      seqExecuteAux acc tasks =
        tasks.foldl (fun d t => Dict.insert t.name t.outcome.value d) acc
  | [], acc, _ => by simp [seqExecuteAux]
  | x :: rest, acc, h => by
      have hx := h x (List.mem_cons_self x rest)
      have hv : x.outcome.value = true := by rw [hx]; rfl
      rw [seqExecuteAux]
      simp only [hx, if_true]
      rw [List.foldl_cons, hv]
      exact seqExecuteAux_all_true rest _ (fun t ht => h t (List.mem_cons_of_mem x ht))

/-- In a fold of dict inserts whose values are all `true`, any key that is
inserted (or already mapped to `true`) ends up mapped to `true`. -/
theorem lookup_foldl_insert_true :
    ∀ (tasks : List ExecTask) (acc : List (String × Bool)) (t0 : ExecTask),
      (∀ t ∈ tasks, t.outcome.value = true) →
      (t0 ∈ tasks ∨ Dict.lookup t0.name acc = some true) →
      Dict.lookup t0.name
        (tasks.foldl (fun d t => Dict.insert t.name t.outcome.value d) acc) =
        some true
  | [], acc, t0, _, hmem => by
      rcases hmem with h | h
      · simp at h
      · simpa using h
  | x :: rest, acc, t0, hall, hmem => by
      rw [List.foldl_cons]
      apply lookup_foldl_insert_true rest _ t0
        (fun t ht => hall t (List.mem_cons_of_mem x ht))
      rcases hmem with hin | hacc
      · rcases List.mem_cons.mp hin with rfl | hin2
        · right
          rw [hall t0 (List.mem_cons_self t0 rest)]
          exact Dict.lookup_insert_self t0.name true acc
        · left
          exact hin2
      · right
        by_cases hx : t0.name = x.name
        · rw [hx, hall x (List.mem_cons_self x rest)]
          exact Dict.lookup_insert_self x.name true acc
        · rw [Dict.lookup_insert_ne _ _ hx]
          exact hacc

/-- C10.  On a task list where every `execute()` returns `true` without
raising, the two strategies produce identical result dicts, and that dict
maps every input task's name to `true`. -/
theorem C10_strategies_agree_on_success (tasks : List ExecTask)
    (h : ∀ t ∈ tasks, t.outcome = Outcome.returns true) :
    seqExecute tasks = parExecute tasks
    ∧ (∀ t ∈ tasks, Dict.lookup t.name (parExecute tasks) = some true)
    ∧ (∀ t ∈ tasks, Dict.lookup t.name (seqExecute tasks) = some true) := by
  have heq : seqExecute tasks = parExecute tasks := by
    rw [seqExecute, parExecute]
    exact seqExecuteAux_all_true tasks [] h
  have hv : ∀ t ∈ tasks, t.outcome.value = true := by
    intro t ht
    rw [h t ht]
    rfl
  have hpar : ∀ t ∈ tasks, Dict.lookup t.name (parExecute tasks) = some true := by
    intro t ht
    rw [parExecute]
    exact lookup_foldl_insert_true tasks [] t hv (Or.inl ht)
  exact ⟨heq, hpar, fun t ht => heq ▸ hpar t ht⟩

/-- Witness for C10 on two succeeding tasks. -/
theorem C10_strategies_agree_on_success_witness :
    (∀ t ∈ tasksC10, t.outcome = Outcome.returns true)
    ∧ (seqExecute tasksC10 = parExecute tasksC10
      ∧ (∀ t ∈ tasksC10, Dict.lookup t.name (parExecute tasksC10) = some true)
      ∧ (∀ t ∈ tasksC10, Dict.lookup t.name (seqExecute tasksC10) = some true)) :=
  ⟨by decide, C10_strategies_agree_on_success tasksC10 (by decide)⟩


/-- Values of a dict contain a value just inserted. -/
theorem Dict.self_mem_values_insert {κ α : Type} [DecidableEq κ] (k : κ)
    (v : α) (d : List (κ × α)) : v ∈ (Dict.insert k v d).map Prod.snd := by
  induction d with
  | nil => simp [Dict.insert]
  | cons p rest ih =>
      obtain ⟨k', v'⟩ := p
      by_cases h : k' = k
      · simp [Dict.insert, h]
      · simp only [Dict.insert, h, if_false, List.map_cons, List.mem_cons]
        exact Or.inr ih

/-- Looking up index `n + i` in the association list built from
`enumFrom n` finds the `i`-th element. -/
theorem lookup_enumFrom_map {α β : Type} (f : α → β) :
    ∀ (l : List α) (n i : Nat),
      Dict.lookup (n + i) ((l.enumFrom n).map (fun p => (p.1, f p.2))) =
        (l.get? i).map f
  | [], n, i => by simp [List.enumFrom, Dict.lookup]
  | a :: l, n, i => by
      cases i with
      | zero => simp [List.enumFrom, Dict.lookup]
      | succ j =>
          have hne : ¬(n = n + (j + 1)) := by omega
          simp only [List.enumFrom, List.map_cons, Dict.lookup, hne, if_false]
          have harith : n + (j + 1) = (n + 1) + j := by omega
          rw [harith]
          exact lookup_enumFrom_map f l (n + 1) j

/-- Looking up index `i` in the association list built from `enum` finds
the `i`-th element. -/
theorem lookup_enum_map {α β : Type} (f : α → β) (l : List α) (i : Nat) :
    Dict.lookup i (l.enum.map (fun p => (p.1, f p.2))) = (l.get? i).map f := by
  have := lookup_enumFrom_map f l 0 i
  simpa [List.enum] using this

/-- C5 counterexample: a `ConnectionError` raised by `redis.keys` during
`get_all_workflow_states` is not surfaced to the caller — the call
returns an empty `ok` list (the mid-operation fall-back to a fresh
in-memory repository), not a storage error. -/
theorem C5_counterexample :
    redisGetAll true (Except.error RedisErr.conn) (Except.ok []) = Except.ok []
    ∧ redisGetAll true (Except.error RedisErr.conn) (Except.ok [])
        ≠ Except.error RedisErr.conn
    ∧ redisGetAll true (Except.error RedisErr.conn) (Except.ok [])
        ≠ Except.error RedisErr.other := by
  refine ⟨rfl, ?_, ?_⟩ <;> intro h <;> simp [redisGetAll] at h

/-- C5 as the code has it: `save_workflow_state` and `get_workflow_state`
propagate an in-flight Redis failure to the caller, but
`get_all_workflow_states` never does — it swallows every failure and
returns an `ok` list (empty on failure). -/
theorem C5_storage_failure_surfacing :
    (∀ e : RedisErr, redisSave true (Except.error e) = Except.error e)
    ∧ (∀ e : RedisErr, redisGet true (Except.error e) = Except.error e)
    ∧ (∀ (av : Bool) (kr : Except RedisErr (List String))
        (mr : Except RedisErr (List (Option WorkflowState))),
        ∃ l, redisGetAll av kr mr = Except.ok l) := by
  refine ⟨fun e => rfl, fun e => rfl, ?_⟩
  intro av kr mr
  cases av with
  | false => exact ⟨[], by simp [redisGetAll]⟩
  | true =>
      cases kr with
      | error e => exact ⟨[], by simp [redisGetAll]⟩
      | ok keys =>
          by_cases hk : keys.isEmpty
          · exact ⟨[], by simp [redisGetAll, hk]⟩
          · cases mr with
            | error e => exact ⟨[], by simp [redisGetAll, hk]⟩
            | ok values => exact ⟨values.reduceOption, by simp [redisGetAll, hk]⟩

/-- Witness for the amended C5 at concrete failures. -/
theorem C5_storage_failure_surfacing_witness :
    redisSave true (Except.error RedisErr.conn) = Except.error RedisErr.conn
    ∧ redisGet true (Except.error RedisErr.other) = Except.error RedisErr.other
    ∧ ∃ l, redisGetAll true (Except.error RedisErr.conn) (Except.ok [])
        = Except.ok l :=
  ⟨C5_storage_failure_surfacing.1 RedisErr.conn,
   C5_storage_failure_surfacing.2.1 RedisErr.other,
   C5_storage_failure_surfacing.2.2 true (Except.error RedisErr.conn)
     (Except.ok [])⟩

/-- C6 counterexample: `InMemoryStateRepository.__init__` gives every
instance its own empty `states` dict, so a save through one fresh
instance is invisible to a second, distinct fresh instance — both its
`get` and `get_all` see nothing. -/
theorem C6_counterexample :
    ((InMemoryStateRepository.new.save_workflow_state "w" stateC6).get_workflow_state "w"
        = some stateC6)
    ∧ InMemoryStateRepository.new.get_workflow_state "w" = none
    ∧ InMemoryStateRepository.new.get_workflow_state "w" ≠ some stateC6
    ∧ InMemoryStateRepository.new.get_all_workflow_states = [] := by
  refine ⟨rfl, rfl, ?_, rfl⟩
  intro h
  cases h

/-- C6 as the code has it: the in-memory store is per-instance.  Within
one instance a save is observed by both `get` and `get_all`; a distinct
freshly constructed instance observes nothing. -/
theorem C6_per_instance_storage (r : InMemoryStateRepository) (wid : String)
    (st : WorkflowState) :
    ((r.save_workflow_state wid st).get_workflow_state wid = some st)
    ∧ st ∈ (r.save_workflow_state wid st).get_all_workflow_states
    ∧ InMemoryStateRepository.new.get_workflow_state wid = none
    ∧ InMemoryStateRepository.new.get_all_workflow_states = [] := by
  refine ⟨?_, ?_, rfl, rfl⟩
  · exact Dict.lookup_insert_self wid st r.states
  · exact Dict.self_mem_values_insert wid st r.states

/-- Witness for the amended C6 at a concrete instance and state. -/
theorem C6_per_instance_storage_witness :
    ((InMemoryStateRepository.new.save_workflow_state "w" stateC6).get_workflow_state "w"
        = some stateC6)
    ∧ stateC6 ∈ (InMemoryStateRepository.new.save_workflow_state "w" stateC6).get_all_workflow_states
    ∧ InMemoryStateRepository.new.get_workflow_state "w" = none
    ∧ InMemoryStateRepository.new.get_all_workflow_states = [] :=
  C6_per_instance_storage InMemoryStateRepository.new "w" stateC6

/-- C7 counterexample: a step definition with two `TaskDefinition`s that
share the name `x` yields a created step holding a single `TaskState`,
not one per `TaskDefinition` — the second dict assignment overwrites the
first. -/
theorem C7_counterexample :
    ((Dict.lookup 0 (create_workflow [] defC7 "w7" 0).1.steps).map
        (fun s => s.tasks.length)) = some 1
    ∧ (defC7.steps.get? 0).map (fun sd => sd.tasks.length) = some 2 := by
  exact ⟨rfl, rfl⟩


/-- C7 as the code has it: for a definition whose task names are unique
within each step, `WorkflowFactory.create_workflow` builds a state with
exactly one step entry per `StepDefinition`, keyed 0..N-1 in definition
order, each step PENDING with one PENDING result-less `TaskState` per
`TaskDefinition` keyed by name in definition order, workflow PENDING, and
persists exactly that state under the workflow id before returning. -/
theorem C7_factory_creates_pending_state (repo : Repo)
    (d : WorkflowDefinition) (wid : String) (t : Nat)
    (h : ∀ sd ∈ d.steps, (sd.tasks.map TaskDefinition.name).Nodup) :
    ((createWorkflowState d wid t).steps.map Prod.fst = List.range d.steps.length)
    ∧ (createWorkflowState d wid t).steps.length = d.steps.length
    ∧ (∀ i sd, d.steps.get? i = some sd →
        Dict.lookup i (createWorkflowState d wid t).steps = some
          { execution_type := sd.execution_type
            status := TaskStatus.pending
            tasks := sd.tasks.map
              (fun td => (td.name, ⟨td.name, TaskStatus.pending, none⟩)) })
    ∧ (createWorkflowState d wid t).status = WorkflowStatus.pending
    ∧ (create_workflow repo d wid t).1 = createWorkflowState d wid t
    ∧ Dict.lookup wid (create_workflow repo d wid t).2 =
        some (createWorkflowState d wid t) := by
  refine ⟨?_, ?_, ?_, rfl, rfl, ?_⟩
  · show (d.steps.enum.map (fun p => (p.1, buildStepState p.2))).map Prod.fst
        = List.range d.steps.length
    rw [List.map_map]
    have : (Prod.fst ∘ fun p : Nat × StepDefinition => (p.1, buildStepState p.2))
        = Prod.fst := rfl
    rw [this]
    exact List.enum_map_fst d.steps
  · show (d.steps.enum.map (fun p => (p.1, buildStepState p.2))).length
        = d.steps.length
    simp
  · intro i sd hget
    show Dict.lookup i (d.steps.enum.map (fun p => (p.1, buildStepState p.2)))
        = _
    rw [lookup_enum_map buildStepState d.steps i, hget]
    have hmem : sd ∈ d.steps := List.get?_mem hget
    have hnd := h sd hmem
    have htasks : (buildStepState sd).tasks = sd.tasks.map
        (fun td => (td.name, (⟨td.name, TaskStatus.pending, none⟩ : TaskState))) := by
      show sd.tasks.foldl _ [] = _
      have := foldl_insert_eq_map TaskDefinition.name
        (fun td => (⟨td.name, TaskStatus.pending, none⟩ : TaskState))
        sd.tasks [] hnd (by simp)
      simpa using this
    simp only [Option.map_some']
    congr 1
    rw [show buildStepState sd =
      { execution_type := sd.execution_type
        status := TaskStatus.pending
        tasks := (buildStepState sd).tasks } from rfl]
    rw [htasks]
  · exact Dict.lookup_insert_self wid (createWorkflowState d wid t) repo

/-- Witness for the amended C7 on the 2-step `defC1` at fresh repo, id
`w1`, clock 5. -/
theorem C7_factory_creates_pending_state_witness :
    (∀ sd ∈ defC1.steps, (sd.tasks.map TaskDefinition.name).Nodup)
    ∧ (((createWorkflowState defC1 "w1" 5).steps.map Prod.fst
          = List.range defC1.steps.length)
      ∧ (createWorkflowState defC1 "w1" 5).steps.length = defC1.steps.length
      ∧ (∀ i sd, defC1.steps.get? i = some sd →
          Dict.lookup i (createWorkflowState defC1 "w1" 5).steps = some
            { execution_type := sd.execution_type
              status := TaskStatus.pending
              tasks := sd.tasks.map
                (fun td => (td.name, ⟨td.name, TaskStatus.pending, none⟩)) })
      ∧ (createWorkflowState defC1 "w1" 5).status = WorkflowStatus.pending
      ∧ (create_workflow [] defC1 "w1" 5).1 = createWorkflowState defC1 "w1" 5
      ∧ Dict.lookup "w1" (create_workflow [] defC1 "w1" 5).2 =
          some (createWorkflowState defC1 "w1" 5)) :=
  ⟨by decide, C7_factory_creates_pending_state [] defC1 "w1" 5 (by decide)⟩

/-- Two dicts with the same keys agree on every `isSome`-test used by the
reconciliation success condition. -/
theorem all_found_congr (l : List (ExecTask × Bool))
    {ts ts' : List (String × TaskState)}
    (h : ts.map Prod.fst = ts'.map Prod.fst) :
    (l.all fun p => (Dict.lookup p.1.name ts).isSome && p.2) =
      (l.all fun p => (Dict.lookup p.1.name ts').isSome && p.2) := by
  have hk : ∀ k : String, (Dict.lookup k ts).isSome = (Dict.lookup k ts').isSome := by
    intro k
    by_cases hm : k ∈ ts.map Prod.fst
    · rw [Dict.lookup_isSome_of_mem hm, Dict.lookup_isSome_of_mem (h ▸ hm)]
    · rw [Dict.lookup_eq_none_of_not_mem hm,
        Dict.lookup_eq_none_of_not_mem (h ▸ hm)]
  induction l with
  | nil => rfl
  | cons p rest ih => simp [List.all_cons, hk p.1.name, ih]

/-- The reconciliation loop preserves the key set of the step's task
dict. -/
theorem reconcileAux_keys :
    ∀ (l : List (ExecTask × Bool)) (ts : List (String × TaskState)) (ok : Bool),
      (reconcileAux l ts ok).1.map Prod.fst = ts.map Prod.fst
  | [], ts, ok => rfl
  | (t, r) :: rest, ts, ok => by
      rw [reconcileAux]
      cases hl : Dict.lookup t.name ts with
      | none => exact reconcileAux_keys rest ts false
      | some tstate =>
          rw [reconcileAux_keys rest _ _]
          exact Dict.keys_insert_of_mem _
            (Dict.mem_of_lookup_isSome (by simp [hl]))

/-- The `step_success` boolean computed by the reconciliation loop: the
conjunction, over the zipped (task, result) pairs only, of "the task name
is in the step's dict and its result is true". -/
theorem reconcileAux_snd :
    ∀ (l : List (ExecTask × Bool)) (ts : List (String × TaskState)) (ok : Bool),
      (reconcileAux l ts ok).2 =
        (ok && l.all fun p => (Dict.lookup p.1.name ts).isSome && p.2)
  | [], ts, ok => by simp [reconcileAux]
  | (t, r) :: rest, ts, ok => by
      rw [reconcileAux]
      cases hl : Dict.lookup t.name ts with
      | none =>
          rw [reconcileAux_snd rest ts false]
          simp [List.all_cons, hl]
      | some tstate =>
          rw [reconcileAux_snd rest _ (ok && r)]
          have hmemk : t.name ∈ ts.map Prod.fst :=
            Dict.mem_of_lookup_isSome (by rw [hl]; rfl)
          have hkeys := Dict.keys_insert_of_mem
            (d := ts)
            ({ tstate with
                status := if r then TaskStatus.succeeded else TaskStatus.failed
                result := some r })
            hmemk
          rw [all_found_congr rest hkeys]
          simp [List.all_cons, hl, Bool.and_assoc]

/-- `all` over a mapped list, for maps between different types. -/
theorem all_map_general {α β : Type} (f : α → β) (p : β → Bool) :
    ∀ l : List α, (l.map f).all p = l.all (fun a => p (f a))
  | [] => rfl
  | x :: xs => by
      simp only [List.map_cons, List.all_cons, all_map_general f p xs]

/-- The tasks built by `_execute_step`'s factory loop carry exactly the
step's task names, in order (the registry returns a task named by its
registry key). -/
theorem resolveTasks_names (env : TaskEnv) :
    ∀ (names : List String) (tasks : List ExecTask),
      resolveTasks env names = some tasks → tasks.map ExecTask.name = names
  | [], tasks, h => by
      rw [resolveTasks] at h
      obtain rfl : tasks = [] := (Option.some.inj h).symm
      rfl
  | n :: rest, tasks, h => by
      rw [resolveTasks] at h
      cases he : env n with
      | none =>
          rw [he] at h
          cases h
      | some o =>
          rw [he] at h
          obtain ⟨ts, hts, hcons⟩ := Option.map_eq_some'.mp h
          rw [← hcons, List.map_cons, resolveTasks_names env rest ts hts]

/-- Zipping a list with a mapped prefix of itself pairs each prefix
element with its own image. -/
theorem zip_take_map {α β : Type} (f : α → β) :
    ∀ (l : List α) (k : Nat),
      l.zip ((l.take k).map f) = (l.take k).map (fun t => (t, f t))
  | [], _ => by simp
  | _ :: _, 0 => by simp
  | x :: xs, k + 1 => by
      rw [List.take_succ_cons, List.map_cons, List.zip_cons_cons,
        List.map_cons, zip_take_map f xs k]



/-- Anything in a dict after an insert is the inserted pair or was already
present. -/
theorem Dict.mem_insert {κ α : Type} [DecidableEq κ] {p : κ × α} {k : κ}
    {v : α} {d : List (κ × α)} (h : p ∈ Dict.insert k v d) :
    p = (k, v) ∨ p ∈ d := by
  induction d with
  | nil => simpa [Dict.insert] using h
  | cons q rest ih =>
      obtain ⟨k', v'⟩ := q
      by_cases hk : k' = k
      · simp only [Dict.insert, hk, if_true] at h
        rcases List.mem_cons.mp h with rfl | hm
        · exact Or.inl rfl
        · exact Or.inr (List.mem_cons_of_mem _ hm)
      · simp only [Dict.insert, hk, if_false] at h
        rcases List.mem_cons.mp h with rfl | hm
        · exact Or.inr (List.mem_cons_self _ _)
        · rcases ih hm with h1 | h1
          · exact Or.inl h1
          · exact Or.inr (List.mem_cons_of_mem _ h1)

/-- Every task state built by the factory's task loop is PENDING. -/
theorem buildStepState_tasks_pending_aux :
    ∀ (l : List TaskDefinition) (acc : List (String × TaskState)),
      (∀ p ∈ acc, p.2.status = TaskStatus.pending) →
      ∀ p ∈ l.foldl
        (fun a td =>
          Dict.insert td.name ⟨td.name, TaskStatus.pending, none⟩ a) acc,
        p.2.status = TaskStatus.pending
  | [], acc, hacc => hacc
  | td :: l, acc, hacc => by
      rw [List.foldl_cons]
      apply buildStepState_tasks_pending_aux l
      intro p hp
      rcases Dict.mem_insert hp with rfl | hp2
      · rfl
      · exact hacc p hp2

/-- Every task of a factory-built step is PENDING. -/
theorem buildStepState_tasks_pending (sd : StepDefinition) :
    ∀ p ∈ (buildStepState sd).tasks, p.2.status = TaskStatus.pending :=
  buildStepState_tasks_pending_aux sd.tasks [] (by simp)

/-- The created state's step keys are exactly `0..N-1`. -/
theorem createWorkflowState_keys (d : WorkflowDefinition) (wid : String)
    (t : Nat) :
    (createWorkflowState d wid t).steps.map Prod.fst =
      List.range d.steps.length := by
  show (d.steps.enum.map (fun p => (p.1, buildStepState p.2))).map Prod.fst = _
  rw [List.map_map]
  have : (Prod.fst ∘ fun p : Nat × StepDefinition => (p.1, buildStepState p.2))
      = Prod.fst := rfl
  rw [this]
  exact List.enum_map_fst d.steps

/-- The created state's step at index `i` is the factory-built step for
the `i`-th step definition. -/
theorem createWorkflowState_lookup (d : WorkflowDefinition) (wid : String)
    (t : Nat) (i : Nat) :
    Dict.lookup i (createWorkflowState d wid t).steps =
      (d.steps.get? i).map buildStepState :=
  lookup_enum_map buildStepState d.steps i

/-- The status assignment at the end of reconciliation. -/
theorem reconcileStep_status (tasks : List ExecTask)
    (results : List (String × Bool)) (step : StepState) :
    (reconcileStep tasks results step).1.status =
      if (reconcileStep tasks results step).2 then TaskStatus.succeeded
      else TaskStatus.failed := rfl

/-- A step reported successful by `_execute_step` was marked SUCCEEDED. -/
theorem execute_step_success_status (env : TaskEnv) (step : StepState)
    (h : (execute_step env step).2.2 = true) :
    (execute_step env step).1.status = TaskStatus.succeeded := by
  unfold execute_step at h ⊢
  by_cases he : step.tasks.isEmpty
  · rw [if_pos he] at h
    cases h
  · rw [if_neg he] at h ⊢
    cases hr : resolveTasks env (step.tasks.map Prod.fst) with
    | none =>
        rw [hr] at h
        dsimp only at h
        cases h
    | some tasks =>
        rw [hr] at h
        dsimp only at h ⊢
        rw [reconcileStep_status]
        rw [h]
        rfl

/-- An unregistered task name in the step aborts `_execute_step` before
the strategy: the step object is returned untouched, nothing is saved,
and the step is reported failed. -/
theorem resolveTasks_eq_none (env : TaskEnv) :
    ∀ (names : List String) (n : String), n ∈ names → env n = none →
      resolveTasks env names = none
  | [], n, hn, _ => by cases hn
  | m :: rest, n, hn, he => by
      rw [resolveTasks]
      cases hm : env m with
      | none => rfl
      | some o =>
          rcases List.mem_cons.mp hn with rfl | hn2
          · rw [hm] at he
            cases he
          · rw [resolveTasks_eq_none env rest n hn2 he]
            rfl

/-- `_execute_step` on a step containing an unregistered task name:
untouched step, no save, failure. -/
theorem execute_step_unregistered (env : TaskEnv) (step : StepState)
    (n : String) (hn : n ∈ step.tasks.map Prod.fst) (he : env n = none) :
    execute_step env step = (step, false, false) := by
  unfold execute_step
  have hne : ¬step.tasks.isEmpty = true := by
    cases ht : step.tasks with
    | nil => rw [ht] at hn; cases hn
    | cons a l => simp [ht]
  rw [if_neg hne, resolveTasks_eq_none env _ n hn he]


/-- Looking up the step just stored. -/
theorem setStep_lookup_self (st : WorkflowState) (idx : Nat) (s : StepState) :
    Dict.lookup idx (setStep st idx s).steps = some s :=
  Dict.lookup_insert_self idx s st.steps

/-- Storing a step leaves the other indices unchanged. -/
theorem setStep_lookup_ne (st : WorkflowState) (idx : Nat) (s : StepState)
    {j : Nat} (h : j ≠ idx) :
    Dict.lookup j (setStep st idx s).steps = Dict.lookup j st.steps :=
  Dict.lookup_insert_ne s st.steps h

/-- Storing a step at an existing index preserves the key set. -/
theorem setStep_keys (st : WorkflowState) (idx : Nat) (s : StepState)
    (h : idx ∈ st.steps.map Prod.fst) :
    (setStep st idx s).steps.map Prod.fst = st.steps.map Prod.fst :=
  Dict.keys_insert_of_mem s h

/-- Invariants of the engine's step loop (workflow.py lines 102–138),
stated for a run started on steps that are all PENDING with PENDING
tasks: the final state is the last one saved; the loop changes no step
key and touches no index outside its work list; and whenever the final
state holds a FAILED step, the workflow status is FAILED and every
later-indexed step of the work list is still PENDING with PENDING tasks
— the loop returned before reaching it. -/
theorem execStepsLoop_fail_fast (env : TaskEnv) (wid : String) :
    ∀ (idxs : List Nat), ∀ (st : WorkflowState) (repo : Repo)
      (trace : List WorkflowState) (clock : Nat) (r : EngineResult),
      execStepsLoop env wid idxs st repo trace clock = r →
      List.Sorted (· < ·) idxs →
      (∀ j ∈ idxs, ∃ s, Dict.lookup j st.steps = some s ∧
          s.status = TaskStatus.pending ∧
          ∀ p ∈ s.tasks, p.2.status = TaskStatus.pending) →
      (∀ i s, i ∉ idxs → Dict.lookup i st.steps = some s →
          s.status ≠ TaskStatus.failed) →
      (Dict.lookup wid r.repo = some r.state)
      ∧ (r.state.steps.map Prod.fst = st.steps.map Prod.fst)
      ∧ (∀ i, i ∉ idxs →
          Dict.lookup i r.state.steps = Dict.lookup i st.steps)
      ∧ (∀ i s, Dict.lookup i r.state.steps = some s →
          s.status = TaskStatus.failed →
          r.state.status = WorkflowStatus.failed ∧
          ∀ j, j ∈ idxs → i < j → ∀ s',
            Dict.lookup j r.state.steps = some s' →
            s'.status = TaskStatus.pending ∧
            ∀ p ∈ s'.tasks, p.2.status = TaskStatus.pending) := by
  intro idxs
  induction idxs with
  | nil =>
      intro st repo trace clock r hr _ _ h4
      rw [execStepsLoop] at hr
      subst hr
      refine ⟨Dict.lookup_insert_self _ _ _, rfl, fun i _ => rfl, ?_⟩
      intro i s hs hfail
      exact absurd hfail (h4 i s (by simp) hs)
  | cons idx rest ih =>
      intro st repo trace clock r hr hsort h1 h4
      obtain ⟨step, hstep, hpend, htasks⟩ := h1 idx (List.mem_cons_self idx rest)
      have hcons := List.sorted_cons.mp hsort
      have hlt : ∀ j ∈ rest, idx < j := hcons.1
      have hsort2 : List.Sorted (· < ·) rest := hcons.2
      have hidxmem : idx ∈ st.steps.map Prod.fst := by
        apply Dict.mem_of_lookup_isSome
        rw [hstep]
        rfl
      have k1 : (setStep st idx { step with status := TaskStatus.running }).steps.map Prod.fst
          = st.steps.map Prod.fst := setStep_keys _ _ _ hidxmem
      have k2 : idx ∈ (setStep st idx { step with status := TaskStatus.running }).steps.map Prod.fst := by
        rw [k1]
        exact hidxmem
      have f1 : ∀ j, j ≠ idx →
          Dict.lookup j (setStep (setStep st idx { step with status := TaskStatus.running })
            idx (execute_step env { step with status := TaskStatus.running }).1).steps
          = Dict.lookup j st.steps := by
        intro j hj
        rw [setStep_lookup_ne _ _ _ hj, setStep_lookup_ne _ _ _ hj]
      have f2 : Dict.lookup idx (setStep (setStep st idx { step with status := TaskStatus.running })
            idx (execute_step env { step with status := TaskStatus.running }).1).steps
          = some (execute_step env { step with status := TaskStatus.running }).1 :=
        setStep_lookup_self _ _ _
      have f3 : (setStep (setStep st idx { step with status := TaskStatus.running })
            idx (execute_step env { step with status := TaskStatus.running }).1).steps.map Prod.fst
          = st.steps.map Prod.fst := by
        rw [setStep_keys _ _ _ k2, k1]
      rw [execStepsLoop] at hr
      split at hr
      next hnone =>
        rw [hstep] at hnone
        cases hnone
      next s2 heq =>
        rw [hstep] at heq
        have hs2 : s2 = step := (Option.some.inj heq).symm
        rw [hs2] at hr
        by_cases hsucc :
            (execute_step env { step with status := TaskStatus.running }).2.2 = true
        · rw [if_pos hsucc] at hr
          have hN : (execute_step env { step with status := TaskStatus.running }).1.status
              = TaskStatus.succeeded := execute_step_success_status _ _ hsucc
          have h1' : ∀ j ∈ rest, ∃ s,
              Dict.lookup j (setStep (setStep st idx { step with status := TaskStatus.running })
                idx (execute_step env { step with status := TaskStatus.running }).1).steps = some s
              ∧ s.status = TaskStatus.pending
              ∧ ∀ p ∈ s.tasks, p.2.status = TaskStatus.pending := by
            intro j hj
            have hji : j ≠ idx := Ne.symm (Nat.ne_of_lt (hlt j hj))
            rw [f1 j hji]
            exact h1 j (List.mem_cons_of_mem idx hj)
          have h4' : ∀ i s, i ∉ rest →
              Dict.lookup i (setStep (setStep st idx { step with status := TaskStatus.running })
                idx (execute_step env { step with status := TaskStatus.running }).1).steps = some s →
              s.status ≠ TaskStatus.failed := by
            intro i s hi hs
            by_cases hii : i = idx
            · subst hii
              rw [f2] at hs
              have hsN : s = (execute_step env { step with status := TaskStatus.running }).1 :=
                (Option.some.inj hs).symm
              rw [hsN, hN]
              decide
            · rw [f1 i hii] at hs
              refine h4 i s ?_ hs
              simp [List.mem_cons, hii, hi]
          obtain ⟨A, B, C, D⟩ := ih _ _ _ _ _ hr hsort2 h1' h4'
          refine ⟨A, by rw [B, f3], ?_, ?_⟩
          · intro i hi
            have hii : i ≠ idx := fun hEq => hi (hEq ▸ List.mem_cons_self idx rest)
            have hir : i ∉ rest := fun hmem => hi (List.mem_cons_of_mem idx hmem)
            rw [C i hir, f1 i hii]
          · intro i s hs hfail
            obtain ⟨hwf, hrest⟩ := D i s hs hfail
            refine ⟨hwf, ?_⟩
            intro j hj hij s' hs'
            rcases List.mem_cons.mp hj with rfl | hjr
            · exfalso
              by_cases hii : i = j
              · rw [hii] at hij
                exact lt_irrefl j hij
              · by_cases hirest : i ∈ rest
                · exact absurd hij (not_lt.mpr (le_of_lt (hlt i hirest)))
                · have hi2 : Dict.lookup i st.steps = some s := by
                    rw [← f1 i hii, ← C i hirest]
                    exact hs
                  exact (h4 i s (by simp [List.mem_cons, hii, hirest]) hi2) hfail
            · exact hrest j hjr hij s' hs'
        · rw [if_neg hsucc] at hr
          subst hr
          refine ⟨Dict.lookup_insert_self _ _ _, ?_, ?_, ?_⟩
          · show (setStep (setStep st idx { step with status := TaskStatus.running })
                idx (execute_step env { step with status := TaskStatus.running }).1).steps.map Prod.fst
              = st.steps.map Prod.fst
            exact f3
          · intro i hi
            have hii : i ≠ idx := fun hEq => hi (hEq ▸ List.mem_cons_self idx rest)
            show Dict.lookup i (setStep (setStep st idx { step with status := TaskStatus.running })
                idx (execute_step env { step with status := TaskStatus.running }).1).steps
              = Dict.lookup i st.steps
            exact f1 i hii
          · intro i s hs hfail
            refine ⟨rfl, ?_⟩
            intro j hj hij s' hs'
            have hs0 : Dict.lookup i (setStep (setStep st idx { step with status := TaskStatus.running })
                idx (execute_step env { step with status := TaskStatus.running }).1).steps
                = some s := hs
            have hs'0 : Dict.lookup j (setStep (setStep st idx { step with status := TaskStatus.running })
                idx (execute_step env { step with status := TaskStatus.running }).1).steps
                = some s' := hs'
            rcases List.mem_cons.mp hj with rfl | hjr
            · exfalso
              by_cases hii : i = j
              · rw [hii] at hij
                exact lt_irrefl j hij
              · by_cases hirest : i ∈ rest
                · exact absurd hij (not_lt.mpr (le_of_lt (hlt i hirest)))
                · rw [f1 i hii] at hs0
                  exact (h4 i s (by simp [List.mem_cons, hii, hirest]) hs0) hfail
            · have hji : j ≠ idx := Ne.symm (Nat.ne_of_lt (hlt j hjr))
              rw [f1 j hji] at hs'0
              obtain ⟨sj, hsj, hsjp, hsjt⟩ := h1 j (List.mem_cons_of_mem idx hjr)
              rw [hsj] at hs'0
              obtain rfl : sj = s' := Option.some.inj hs'0
              exact ⟨hsjp, hsjt⟩


/-- C1.  Fail-fast at step granularity: execute a factory-created workflow
(persisted under `wid` at creation); if the final state holds a FAILED
step at index `i`, then the workflow status is FAILED, exactly that final
state is persisted under `wid`, and every step with a larger index is
still PENDING with all of its tasks PENDING — the engine returned without
running any later step. -/
theorem C1_fail_fast (env : TaskEnv) (d : WorkflowDefinition) (wid : String)
    (t c : Nat) (r0 : Repo) (res : EngineResult) (i : Nat) (s : StepState)
    (hrun : execute_workflow env (create_workflow r0 d wid t).2 wid c = Except.ok res)
    (hs : Dict.lookup i res.state.steps = some s)
    (hfail : s.status = TaskStatus.failed) :
    res.state.status = WorkflowStatus.failed
    ∧ Dict.lookup wid res.repo = some res.state
    ∧ ∀ j s', i < j → Dict.lookup j res.state.steps = some s' →
        s'.status = TaskStatus.pending
        ∧ ∀ p ∈ s'.tasks, p.2.status = TaskStatus.pending := by
  have hlook : Dict.lookup wid (create_workflow r0 d wid t).2
      = some (createWorkflowState d wid t) := Dict.lookup_insert_self _ _ _
  rw [execute_workflow] at hrun
  split at hrun
  next hnone =>
    rw [hlook] at hnone
    cases hnone
  next st0 heq =>
    rw [hlook] at heq
    have hst0 : st0 = createWorkflowState d wid t := (Option.some.inj heq).symm
    rw [hst0] at hrun
    have hloop := Except.ok.inj hrun
    have hkeys1 : ({ createWorkflowState d wid t with
        status := WorkflowStatus.running, updated_at := c } : WorkflowState).steps.map Prod.fst
        = List.range d.steps.length := createWorkflowState_keys d wid t
    have hperm : List.insertionSort (· ≤ ·)
        (({ createWorkflowState d wid t with
            status := WorkflowStatus.running, updated_at := c } : WorkflowState).steps.map Prod.fst)
        |>.Perm (({ createWorkflowState d wid t with
            status := WorkflowStatus.running, updated_at := c } : WorkflowState).steps.map Prod.fst) :=
      List.perm_insertionSort _ _
    have hnd : (List.insertionSort (· ≤ ·)
        (({ createWorkflowState d wid t with
            status := WorkflowStatus.running, updated_at := c } : WorkflowState).steps.map Prod.fst)).Nodup :=
      hperm.nodup_iff.mpr (by rw [hkeys1]; exact List.nodup_range _)
    have hsorted : List.Sorted (· < ·) (List.insertionSort (· ≤ ·)
        (({ createWorkflowState d wid t with
            status := WorkflowStatus.running, updated_at := c } : WorkflowState).steps.map Prod.fst)) :=
      (List.sorted_insertionSort _ _).lt_of_le hnd
    have hmemiff : ∀ j, j ∈ List.insertionSort (· ≤ ·)
        (({ createWorkflowState d wid t with
            status := WorkflowStatus.running, updated_at := c } : WorkflowState).steps.map Prod.fst)
        ↔ j < d.steps.length := by
      intro j
      rw [hperm.mem_iff, hkeys1, List.mem_range]
    have h1 : ∀ j ∈ List.insertionSort (· ≤ ·)
        (({ createWorkflowState d wid t with
            status := WorkflowStatus.running, updated_at := c } : WorkflowState).steps.map Prod.fst),
        ∃ sj, Dict.lookup j ({ createWorkflowState d wid t with
            status := WorkflowStatus.running, updated_at := c } : WorkflowState).steps = some sj
          ∧ sj.status = TaskStatus.pending
          ∧ ∀ p ∈ sj.tasks, p.2.status = TaskStatus.pending := by
      intro j hj
      have hjN : j < d.steps.length := (hmemiff j).mp hj
      have hlookup : Dict.lookup j ({ createWorkflowState d wid t with
          status := WorkflowStatus.running, updated_at := c } : WorkflowState).steps
          = (d.steps.get? j).map buildStepState := createWorkflowState_lookup d wid t j
      cases hget : d.steps.get? j with
      | none =>
          have := List.get?_eq_none.mp hget
          omega
      | some sd =>
          refine ⟨buildStepState sd, ?_, rfl, buildStepState_tasks_pending sd⟩
          rw [hlookup, hget]
          rfl
    have h4 : ∀ i' s', i' ∉ List.insertionSort (· ≤ ·)
        (({ createWorkflowState d wid t with
            status := WorkflowStatus.running, updated_at := c } : WorkflowState).steps.map Prod.fst) →
        Dict.lookup i' ({ createWorkflowState d wid t with
            status := WorkflowStatus.running, updated_at := c } : WorkflowState).steps = some s' →
        s'.status ≠ TaskStatus.failed := by
      intro i' s' hi' hs'
      exfalso
      have hnm : i' ∉ ({ createWorkflowState d wid t with
          status := WorkflowStatus.running, updated_at := c } : WorkflowState).steps.map Prod.fst :=
        fun hm => hi' (hperm.mem_iff.mpr hm)
      rw [Dict.lookup_eq_none_of_not_mem hnm] at hs'
      cases hs'
    obtain ⟨A, B, C, D⟩ := execStepsLoop_fail_fast env wid
      (List.insertionSort (· ≤ ·)
        (({ createWorkflowState d wid t with
            status := WorkflowStatus.running, updated_at := c } : WorkflowState).steps.map Prod.fst))
      ({ createWorkflowState d wid t with
          status := WorkflowStatus.running, updated_at := c } : WorkflowState)
      (Dict.insert wid ({ createWorkflowState d wid t with
          status := WorkflowStatus.running, updated_at := c } : WorkflowState)
        (create_workflow r0 d wid t).2)
      [({ createWorkflowState d wid t with
          status := WorkflowStatus.running, updated_at := c } : WorkflowState)]
      (c + 1) res hloop hsorted h1 h4
    obtain ⟨hwf, hrest⟩ := D i s hs hfail
    refine ⟨hwf, A, ?_⟩
    intro j s' hij hs'
    have hjk : j ∈ res.state.steps.map Prod.fst := by
      apply Dict.mem_of_lookup_isSome
      rw [hs']
      rfl
    rw [B, hkeys1] at hjk
    exact hrest j ((hmemiff j).mpr (List.mem_range.mp hjk)) hij s' hs'

/-- Witness for C1 on the 2-step `defC1` whose first step fails: the run,
hypotheses and fail-fast conclusion at concrete inputs. -/
theorem C1_fail_fast_witness :
    (execute_workflow envC1 (create_workflow [] defC1 "w1" 5).2 "w1" 10
        = Except.ok runC1)
    ∧ Dict.lookup 0 runC1.state.steps = some stepC1
    ∧ stepC1.status = TaskStatus.failed
    ∧ (runC1.state.status = WorkflowStatus.failed
      ∧ Dict.lookup "w1" runC1.repo = some runC1.state
      ∧ ∀ j s', 0 < j → Dict.lookup j runC1.state.steps = some s' →
          s'.status = TaskStatus.pending
          ∧ ∀ p ∈ s'.tasks, p.2.status = TaskStatus.pending) :=
  ⟨rfl, rfl, rfl,
    C1_fail_fast envC1 defC1 "w1" 5 10 [] runC1 0 stepC1 rfl rfl rfl⟩


/-- One loop iteration whose step contains an unregistered task name:
`_execute_step` returns False without saving and without touching the
step, so the loop exits with workflow FAILED, the step left RUNNING (the
status set just before the save at workflow.py line 119), and every other
index unchanged. -/
theorem execStepsLoop_first_step_unregistered (env : TaskEnv) (wid : String)
    (idx : Nat) (rest : List Nat) (st : WorkflowState) (repo : Repo)
    (trace : List WorkflowState) (clock : Nat) (r : EngineResult)
    (step : StepState) (n : String)
    (hr : execStepsLoop env wid (idx :: rest) st repo trace clock = r)
    (hstep : Dict.lookup idx st.steps = some step)
    (hn : n ∈ step.tasks.map Prod.fst)
    (he : env n = none) :
    r.state.status = WorkflowStatus.failed
    ∧ Dict.lookup wid r.repo = some r.state
    ∧ Dict.lookup idx r.state.steps = some { step with status := TaskStatus.running }
    ∧ (∀ j, j ≠ idx → Dict.lookup j r.state.steps = Dict.lookup j st.steps) := by
  rw [execStepsLoop] at hr
  split at hr
  next hnone =>
    rw [hstep] at hnone
    cases hnone
  next s2 heq =>
    rw [hstep] at heq
    have hs2 : s2 = step := (Option.some.inj heq).symm
    rw [hs2] at hr
    have hexec : execute_step env { step with status := TaskStatus.running }
        = ({ step with status := TaskStatus.running }, false, false) :=
      execute_step_unregistered env { step with status := TaskStatus.running } n hn he
    have hsucc : (execute_step env { step with status := TaskStatus.running }).2.2 = false := by
      rw [hexec]
    rw [if_neg (by rw [hsucc]; exact Bool.false_ne_true)] at hr
    subst hr
    refine ⟨rfl, Dict.lookup_insert_self _ _ _, ?_, ?_⟩
    · show Dict.lookup idx (setStep (setStep st idx { step with status := TaskStatus.running })
          idx (execute_step env { step with status := TaskStatus.running }).1).steps
        = some { step with status := TaskStatus.running }
      calc Dict.lookup idx (setStep (setStep st idx { step with status := TaskStatus.running })
            idx (execute_step env { step with status := TaskStatus.running }).1).steps
          = some (execute_step env { step with status := TaskStatus.running }).1 :=
            setStep_lookup_self _ _ _
        _ = some { step with status := TaskStatus.running } := by rw [hexec]
    · intro j hj
      show Dict.lookup j (setStep (setStep st idx { step with status := TaskStatus.running })
          idx (execute_step env { step with status := TaskStatus.running }).1).steps
        = Dict.lookup j st.steps
      rw [setStep_lookup_ne _ _ _ hj, setStep_lookup_ne _ _ _ hj]

/-- C4 as the code has it: executing a factory-created workflow whose
first step contains an unregistered task name fails the workflow without
invoking the strategy — workflow status FAILED and persisted — but the
failing step is left with status RUNNING (not FAILED), its task states
untouched (all PENDING, so no task is RUNNING), and all later steps still
PENDING with PENDING tasks. -/
theorem C4_unregistered_task (env : TaskEnv) (d : WorkflowDefinition)
    (wid : String) (t c : Nat) (r0 : Repo) (res : EngineResult)
    (step0 : StepState) (n : String)
    (hrun : execute_workflow env (create_workflow r0 d wid t).2 wid c = Except.ok res)
    (hstep : Dict.lookup 0 (createWorkflowState d wid t).steps = some step0)
    (hn : n ∈ step0.tasks.map Prod.fst)
    (he : env n = none) :
    res.state.status = WorkflowStatus.failed
    ∧ Dict.lookup wid res.repo = some res.state
    ∧ Dict.lookup 0 res.state.steps = some { step0 with status := TaskStatus.running }
    ∧ (∀ p ∈ step0.tasks, p.2.status = TaskStatus.pending)
    ∧ (∀ j s', 0 < j → Dict.lookup j res.state.steps = some s' →
        s'.status = TaskStatus.pending
        ∧ ∀ p ∈ s'.tasks, p.2.status = TaskStatus.pending) := by
  have hlook : Dict.lookup wid (create_workflow r0 d wid t).2
      = some (createWorkflowState d wid t) := Dict.lookup_insert_self _ _ _
  rw [execute_workflow] at hrun
  split at hrun
  next hnone =>
    rw [hlook] at hnone
    cases hnone
  next st0 heq =>
    rw [hlook] at heq
    have hst0 : st0 = createWorkflowState d wid t := (Option.some.inj heq).symm
    rw [hst0] at hrun
    have hloop := Except.ok.inj hrun
    have hkeys1 : ({ createWorkflowState d wid t with
        status := WorkflowStatus.running, updated_at := c } : WorkflowState).steps.map Prod.fst
        = List.range d.steps.length := createWorkflowState_keys d wid t
    have hidx_eq : List.insertionSort (· ≤ ·)
        (({ createWorkflowState d wid t with
            status := WorkflowStatus.running, updated_at := c } : WorkflowState).steps.map Prod.fst)
        = List.range d.steps.length := by
      refine List.eq_of_perm_of_sorted ?_ (List.sorted_insertionSort _ _)
        ((List.pairwise_lt_range _).imp fun h => le_of_lt h)
      rw [← hkeys1]
      exact List.perm_insertionSort _ _
    have hN : 0 < d.steps.length := by
      cases hget : d.steps.get? 0 with
      | none =>
          rw [createWorkflowState_lookup, hget] at hstep
          cases hstep
      | some sd =>
          obtain ⟨hlen, _⟩ := List.get?_eq_some.mp hget
          exact hlen
    obtain ⟨m, hm⟩ : ∃ m, d.steps.length = m + 1 := ⟨d.steps.length - 1, by omega⟩
    rw [hidx_eq, hm, List.range_succ_eq_map] at hloop
    have hstep1 : Dict.lookup 0 ({ createWorkflowState d wid t with
        status := WorkflowStatus.running, updated_at := c } : WorkflowState).steps
        = some step0 := hstep
    obtain ⟨W1, W2, W3, W4⟩ := execStepsLoop_first_step_unregistered env wid 0
      ((List.range m).map Nat.succ) _ _ _ _ res step0 n hloop hstep1 hn he
    have hstep0 : ∃ sd0, d.steps.get? 0 = some sd0 ∧ buildStepState sd0 = step0 := by
      rw [createWorkflowState_lookup] at hstep
      cases hget : d.steps.get? 0 with
      | none =>
          rw [hget] at hstep
          cases hstep
      | some sd =>
          rw [hget] at hstep
          exact ⟨sd, rfl, Option.some.inj hstep⟩
    refine ⟨W1, W2, W3, ?_, ?_⟩
    · obtain ⟨sd0, _, hb⟩ := hstep0
      rw [← hb]
      exact buildStepState_tasks_pending sd0
    · intro j s' hj hs'
      have hjne : j ≠ 0 := by omega
      rw [W4 j hjne] at hs'
      have hs'2 : Dict.lookup j (createWorkflowState d wid t).steps = some s' := hs'
      rw [createWorkflowState_lookup] at hs'2
      cases hget : d.steps.get? j with
      | none =>
          rw [hget] at hs'2
          cases hs'2
      | some sdj =>
          rw [hget] at hs'2
          have hb : buildStepState sdj = s' := Option.some.inj hs'2
          rw [← hb]
          exact ⟨rfl, buildStepState_tasks_pending sdj⟩

/-- C4 counterexample: executing a workflow whose first step names the
unregistered task `task_x` (under the real registry of task_factory.py)
leaves that step's status RUNNING in the final, persisted state — the
claim's "step status becomes FAILED / nothing is left RUNNING" is false. -/
theorem C4_counterexample :
    (Dict.lookup 0 runC4.state.steps).map StepState.status
        = some TaskStatus.running
    ∧ (Dict.lookup 0 runC4.state.steps).map StepState.status
        ≠ some TaskStatus.failed
    ∧ (Dict.lookup "w4" runC4.repo).map
        (fun st => (Dict.lookup 0 st.steps).map StepState.status)
        = some (some TaskStatus.running)
    ∧ runC4.state.status = WorkflowStatus.failed := by
  refine ⟨rfl, by decide, rfl, rfl⟩

/-- Witness for the amended C4 on `defC4` under the real task registry. -/
theorem C4_unregistered_task_witness :
    (execute_workflow taskFactoryEnv (create_workflow [] defC4 "w4" 5).2 "w4" 10
        = Except.ok runC4)
    ∧ Dict.lookup 0 (createWorkflowState defC4 "w4" 5).steps = some stepC4
    ∧ "task_x" ∈ stepC4.tasks.map Prod.fst
    ∧ taskFactoryEnv "task_x" = none
    ∧ (runC4.state.status = WorkflowStatus.failed
      ∧ Dict.lookup "w4" runC4.repo = some runC4.state
      ∧ Dict.lookup 0 runC4.state.steps
          = some { stepC4 with status := TaskStatus.running }
      ∧ (∀ p ∈ stepC4.tasks, p.2.status = TaskStatus.pending)
      ∧ (∀ j s', 0 < j → Dict.lookup j runC4.state.steps = some s' →
          s'.status = TaskStatus.pending
          ∧ ∀ p ∈ s'.tasks, p.2.status = TaskStatus.pending)) :=
  ⟨rfl, rfl, by decide, rfl,
    C4_unregistered_task taskFactoryEnv defC4 "w4" 5 10 [] runC4 stepC4 "task_x"
      rfl rfl (by decide) rfl⟩


/-- Timestamp bookkeeping of the step loop: starting from a RUNNING state,
every state the loop saves while still RUNNING carries the caller's
`updated_at` unchanged (the step-RUNNING save and the post-step save never
refresh it), and the terminal state's `updated_at` is a strictly later
clock value. -/
theorem execStepsLoop_timestamps (env : TaskEnv) (wid : String) :
    ∀ (idxs : List Nat) (st : WorkflowState) (repo : Repo)
      (trace : List WorkflowState) (clock : Nat) (r : EngineResult),
      execStepsLoop env wid idxs st repo trace clock = r →
      st.status = WorkflowStatus.running →
      (∀ s ∈ r.trace, s ∈ trace ∨
        (s.status = WorkflowStatus.running ∧ s.updated_at = st.updated_at) ∨
        (s.status ≠ WorkflowStatus.running ∧ clock ≤ s.updated_at))
      ∧ clock ≤ r.state.updated_at
      ∧ r.state.status ≠ WorkflowStatus.running := by
  intro idxs
  induction idxs with
  | nil =>
      intro st repo trace clock r hr hrun
      rw [execStepsLoop] at hr
      subst hr
      refine ⟨?_, Nat.le_refl clock, fun hcontra => by cases hcontra⟩
      intro s hs
      rcases List.mem_append.mp hs with hmem | hmem
      · exact Or.inl hmem
      · right; right
        have hse : s = { st with status := WorkflowStatus.succeeded, updated_at := clock } :=
          List.mem_singleton.mp hmem
        refine ⟨?_, ?_⟩
        · rw [hse]
          intro hcontra
          cases hcontra
        · rw [hse]
  | cons idx rest ih =>
      intro st repo trace clock r hr hrun
      rw [execStepsLoop] at hr
      split at hr
      next hnone =>
        subst hr
        refine ⟨?_, Nat.le_refl clock, fun hcontra => by cases hcontra⟩
        intro s hs
        rcases List.mem_append.mp hs with hmem | hmem
        · exact Or.inl hmem
        · right; right
          have hse : s = { st with status := WorkflowStatus.failed, updated_at := clock } :=
            List.mem_singleton.mp hmem
          refine ⟨?_, ?_⟩
          · rw [hse]
            intro hcontra
            cases hcontra
          · rw [hse]
      next s2 heq =>
        by_cases hsucc :
            (execute_step env { s2 with status := TaskStatus.running }).2.2 = true
        · rw [if_pos hsucc] at hr
          obtain ⟨IH1, IH2, IH3⟩ := ih _ _ _ _ _ hr hrun
          refine ⟨?_, IH2, IH3⟩
          intro s hs
          rcases IH1 s hs with hmem | hrest
          · by_cases hsave :
                (execute_step env { s2 with status := TaskStatus.running }).2.1 = true
            · rw [if_pos hsave] at hmem
              rcases List.mem_append.mp hmem with hmem2 | hmem2
              · rcases List.mem_append.mp hmem2 with h3 | h3
                · exact Or.inl h3
                · right; left
                  have hse : s = setStep st idx { s2 with status := TaskStatus.running } :=
                    List.mem_singleton.mp h3
                  rw [hse]
                  exact ⟨hrun, rfl⟩
              · right; left
                have hse : s = setStep (setStep st idx { s2 with status := TaskStatus.running })
                    idx (execute_step env { s2 with status := TaskStatus.running }).1 :=
                  List.mem_singleton.mp hmem2
                rw [hse]
                exact ⟨hrun, rfl⟩
            · rw [if_neg hsave] at hmem
              rcases List.mem_append.mp hmem with h3 | h3
              · exact Or.inl h3
              · right; left
                have hse : s = setStep st idx { s2 with status := TaskStatus.running } :=
                  List.mem_singleton.mp h3
                rw [hse]
                exact ⟨hrun, rfl⟩
          · rcases hrest with ⟨ha, hb⟩ | hc
            · exact Or.inr (Or.inl ⟨ha, hb⟩)
            · exact Or.inr (Or.inr hc)
        · rw [if_neg hsucc] at hr
          subst hr
          refine ⟨?_, Nat.le_refl clock, fun hcontra => by cases hcontra⟩
          intro s hs
          rcases List.mem_append.mp hs with hmem | hmem
          · by_cases hsave :
                (execute_step env { s2 with status := TaskStatus.running }).2.1 = true
            · rw [if_pos hsave] at hmem
              rcases List.mem_append.mp hmem with h2 | h2
              · rcases List.mem_append.mp h2 with h3 | h3
                · exact Or.inl h3
                · right; left
                  have hse : s = setStep st idx { s2 with status := TaskStatus.running } :=
                    List.mem_singleton.mp h3
                  rw [hse]
                  exact ⟨hrun, rfl⟩
              · right; left
                have hse : s = setStep (setStep st idx { s2 with status := TaskStatus.running })
                    idx (execute_step env { s2 with status := TaskStatus.running }).1 :=
                  List.mem_singleton.mp h2
                rw [hse]
                exact ⟨hrun, rfl⟩
            · rw [if_neg hsave] at hmem
              rcases List.mem_append.mp hmem with h3 | h3
              · exact Or.inl h3
              · right; left
                have hse : s = setStep st idx { s2 with status := TaskStatus.running } :=
                  List.mem_singleton.mp h3
                rw [hse]
                exact ⟨hrun, rfl⟩
          · right; right
            have hse : s = { setStep (setStep st idx { s2 with status := TaskStatus.running })
                idx (execute_step env { s2 with status := TaskStatus.running }).1 with
                status := WorkflowStatus.failed, updated_at := clock } :=
              List.mem_singleton.mp hmem
            refine ⟨?_, ?_⟩
            · rw [hse]
              intro hcontra
              cases hcontra
            · rw [hse]

/-- C9 as the code has it: over the whole run of `execute_workflow`,
`updated_at` is refreshed only by the workflow-status writes — every
state saved while the workflow is still RUNNING (the initial RUNNING
save, each step-RUNNING save and each post-step save, i.e. all saves
whose mutation is a step status or task change) carries exactly the
timestamp taken at the start of the run, and only the terminal
SUCCEEDED/FAILED save carries a strictly later one. -/
theorem C9_updated_at_refresh (env : TaskEnv) (repo : Repo) (wid : String)
    (c : Nat) (res : EngineResult)
    (hrun : execute_workflow env repo wid c = Except.ok res) :
    (∀ s ∈ res.trace,
      (s.status = WorkflowStatus.running → s.updated_at = c)
      ∧ (s.status ≠ WorkflowStatus.running → c < s.updated_at))
    ∧ c < res.state.updated_at
    ∧ res.state.status ≠ WorkflowStatus.running := by
  rw [execute_workflow] at hrun
  split at hrun
  next hnone => cases hrun
  next st0 heq =>
    have hloop := Except.ok.inj hrun
    obtain ⟨T1, T2, T3⟩ := execStepsLoop_timestamps env wid _ _ _ _ _ res hloop rfl
    refine ⟨?_, Nat.lt_of_succ_le T2, T3⟩
    intro s hs
    rcases T1 s hs with hmem | ⟨ha, hb⟩ | ⟨ha, hb⟩
    · have hse : s = { st0 with status := WorkflowStatus.running, updated_at := c } :=
        List.mem_singleton.mp hmem
      constructor
      · intro _
        rw [hse]
      · intro hne
        exfalso
        apply hne
        rw [hse]
    · constructor
      · intro _
        exact hb
      · intro hne
        exact absurd ha hne
    · constructor
      · intro hrn
        exact absurd hrn ha
      · intro _
        exact Nat.lt_of_succ_le hb

/-- C9 counterexample: in a concrete run, the second save (which mutates
step 0's status from PENDING to RUNNING) carries the same `updated_at`
(clock 10) as the first save — the step mutation was persisted without
refreshing the timestamp, although every `datetime.now()` call yields a
fresh value. -/
theorem C9_counterexample :
    (runC9.trace.get? 0).map WorkflowState.updated_at = some 10
    ∧ (runC9.trace.get? 1).map WorkflowState.updated_at = some 10
    ∧ (runC9.trace.get? 0).map (fun s => (Dict.lookup 0 s.steps).map StepState.status)
        = some (some TaskStatus.pending)
    ∧ (runC9.trace.get? 1).map (fun s => (Dict.lookup 0 s.steps).map StepState.status)
        = some (some TaskStatus.running) :=
  ⟨rfl, rfl, rfl, rfl⟩

/-- Witness for the amended C9 on the 1-step `defC9` run. -/
theorem C9_updated_at_refresh_witness :
    (execute_workflow envC9 (create_workflow [] defC9 "w9" 5).2 "w9" 10
        = Except.ok runC9)
    ∧ ((∀ s ∈ runC9.trace,
          (s.status = WorkflowStatus.running → s.updated_at = 10)
          ∧ (s.status ≠ WorkflowStatus.running → 10 < s.updated_at))
      ∧ 10 < runC9.state.updated_at
      ∧ runC9.state.status ≠ WorkflowStatus.running) :=
  ⟨rfl, C9_updated_at_refresh envC9 (create_workflow [] defC9 "w9" 5).2 "w9" 10
    runC9 rfl⟩

/-- C8.  Over every result mapping a strategy can actually return for the
step's resolved tasks — `SequentialExecution` records the failing task's
`false` entry before breaking (execution.py lines 26–32), and
`ParallelExecution` returns a complete mapping — the Engine's
reconciliation treats a missing entry as failure: if any task of the step
has no entry in the mapping, the step's status is set to FAILED, and the
step is marked SUCCEEDED only if every one of its tasks has a `true`
result. -/
theorem C8_missing_entry_is_failure (env : TaskEnv) (step : StepState)
    (tasks : List ExecTask) (et : ExecutionType)
    (hres : resolveTasks env (step.tasks.map Prod.fst) = some tasks)
    (hnd : (step.tasks.map Prod.fst).Nodup) :
    (∀ n ∈ step.tasks.map Prod.fst,
        Dict.lookup n (runStrategy et tasks) = none →
        (reconcileStep tasks (runStrategy et tasks) step).1.status
          = TaskStatus.failed)
    ∧ ((reconcileStep tasks (runStrategy et tasks) step).1.status
          = TaskStatus.succeeded →
        ∀ n ∈ step.tasks.map Prod.fst,
          Dict.lookup n (runStrategy et tasks) = some true) := by
  have hnames : tasks.map ExecTask.name = step.tasks.map Prod.fst :=
    resolveTasks_names env _ tasks hres
  have hndt : (tasks.map ExecTask.name).Nodup := by
    rw [hnames]
    exact hnd
  obtain ⟨k, hRES, hcond⟩ : ∃ k,
      runStrategy et tasks =
        (tasks.take k).map (fun t => (t.name, t.outcome.value))
      ∧ (tasks.take k = tasks ∨
          ∃ t, (tasks.take k).getLast? = some t ∧ t.outcome.value = false) := by
    cases et with
    | parallel =>
        refine ⟨tasks.length, ?_, Or.inl (List.take_length tasks)⟩
        show parExecute tasks = _
        rw [List.take_length]
        have := foldl_insert_eq_map ExecTask.name (fun t => t.outcome.value)
          tasks [] hndt (by simp)
        simpa [parExecute] using this
    | sequential =>
        obtain ⟨k, hk⟩ := seqRan_eq_take tasks
        refine ⟨k, ?_, ?_⟩
        · show seqExecute tasks = _
          rw [← hk]
          have := seqExecuteAux_eq tasks [] hndt (by simp)
          simpa [seqExecute] using this
        · rcases seqRan_maximal tasks with heq | ⟨t, hlast, hne⟩
          · exact Or.inl (by rw [← hk]; exact heq)
          · refine Or.inr ⟨t, by rw [← hk]; exact hlast, ?_⟩
            cases ho : t.outcome with
            | returns b =>
                cases b with
                | true => exact absurd ho hne
                | false => rfl
            | raised => rfl
  have hsucc_eq : (reconcileStep tasks (runStrategy et tasks) step).2
      = (tasks.take k).all
          (fun t => (Dict.lookup t.name step.tasks).isSome && t.outcome.value) := by
    show (reconcileAux (tasks.zip ((runStrategy et tasks).map Prod.snd))
        step.tasks true).2 = _
    rw [reconcileAux_snd, hRES, List.map_map, zip_take_map, Bool.true_and,
      all_map_general]
    rfl
  refine ⟨?_, ?_⟩
  · intro n hn hnone
    have hnotin : n ∉ (tasks.take k).map ExecTask.name := by
      intro hmem
      have hksome : (Dict.lookup n (runStrategy et tasks)).isSome := by
        rw [hRES]
        apply Dict.lookup_isSome_of_mem
        have hkeys : (((tasks.take k).map
              (fun t => (t.name, t.outcome.value))).map Prod.fst)
            = (tasks.take k).map ExecTask.name := by
          rw [List.map_map]
          rfl
        rw [hkeys]
        exact hmem
      rw [hnone] at hksome
      cases hksome
    have hneq : tasks.take k ≠ tasks := by
      intro heq
      apply hnotin
      rw [heq, hnames]
      exact hn
    rcases hcond with h | ⟨t, hlast, hval⟩
    · exact absurd h hneq
    · have htmem : t ∈ tasks.take k := List.mem_of_mem_getLast? hlast
      have hallf : (tasks.take k).all
          (fun t => (Dict.lookup t.name step.tasks).isSome && t.outcome.value)
          = false := by
        cases hq : (tasks.take k).all
            (fun t => (Dict.lookup t.name step.tasks).isSome && t.outcome.value) with
        | false => rfl
        | true =>
            exfalso
            have hallq := List.all_eq_true.mp hq t htmem
            have hv := (Bool.and_eq_true_iff.mp hallq).2
            rw [hval] at hv
            cases hv
      have hsf : (reconcileStep tasks (runStrategy et tasks) step).2 = false := by
        rw [hsucc_eq, hallf]
      rw [reconcileStep_status, hsf]
      rfl
  · intro hstat n hn
    have hall : (tasks.take k).all
        (fun t => (Dict.lookup t.name step.tasks).isSome && t.outcome.value)
        = true := by
      cases hsb : (reconcileStep tasks (runStrategy et tasks) step).2 with
      | true =>
          rw [← hsucc_eq]
          exact hsb
      | false =>
          exfalso
          have hst := reconcileStep_status tasks (runStrategy et tasks) step
          rw [hsb, hstat] at hst
          cases hst
    have htake : tasks.take k = tasks := by
      rcases hcond with h | ⟨t, hlast, hval⟩
      · exact h
      · exfalso
        have htmem : t ∈ tasks.take k := List.mem_of_mem_getLast? hlast
        have hv := (Bool.and_eq_true_iff.mp (List.all_eq_true.mp hall t htmem)).2
        rw [hval] at hv
        cases hv
    have hn2 : n ∈ tasks.map ExecTask.name := by
      rw [hnames]
      exact hn
    obtain ⟨u, hu, hun⟩ := List.mem_map.mp hn2
    have huval : u.outcome.value = true := by
      have hmem : u ∈ tasks.take k := by
        rw [htake]
        exact hu
      exact (Bool.and_eq_true_iff.mp (List.all_eq_true.mp hall u hmem)).2
    rw [← hun, hRES, htake,
      Dict.lookup_map_self ExecTask.name (fun t => t.outcome.value) hndt hu,
      huval]

/-- Witness for C8 on `stepC8` under `envC8` with the sequential
strategy: `b` fails so `c` never runs and has no entry; the conclusions
follow by the theorem. -/
theorem C8_missing_entry_is_failure_witness :
    (resolveTasks envC8 (stepC8.tasks.map Prod.fst) = some tasksC8)
    ∧ (stepC8.tasks.map Prod.fst).Nodup
    ∧ ((∀ n ∈ stepC8.tasks.map Prod.fst,
          Dict.lookup n (runStrategy ExecutionType.sequential tasksC8) = none →
          (reconcileStep tasksC8 (runStrategy ExecutionType.sequential tasksC8)
              stepC8).1.status = TaskStatus.failed)
      ∧ ((reconcileStep tasksC8 (runStrategy ExecutionType.sequential tasksC8)
              stepC8).1.status = TaskStatus.succeeded →
          ∀ n ∈ stepC8.tasks.map Prod.fst,
            Dict.lookup n (runStrategy ExecutionType.sequential tasksC8)
              = some true)) :=
  ⟨by decide, by decide,
    C8_missing_entry_is_failure envC8 stepC8 tasksC8 ExecutionType.sequential
      (by decide) (by decide)⟩

end WF
